import Mathlib

/-!
# Verification of the waterfall task orchestrator core

Shallow embedding of the repository's core data structures and algorithms:

* `Interval` / `IntervalSet` (`src/interval.rs`, `src/interval_set.rs`)
* `Calendar` (`src/calendar.rs`)
* `Schedule` (`src/schedule.rs`)
* `Requirement` (`src/requirement.rs`)
* `Task::generate_intervals` (`src/task.rs`)
* `VarMap::apply_to` (`src/varmap.rs`)
* `head_tail` and output recording (`src/executors/mod.rs`, `src/executors/local_executor.rs`)
* the in-memory storage actor (`src/storage/memory.rs`)

Timestamps (`chrono::DateTime<Utc>`) are modelled as `Int` (an instant on a
discrete millisecond axis); `DateTime::<Utc>::MIN_UTC` / `MAX_UTC` are the two
sentinel constants below — the code only ever uses their ordering, so their
exact magnitudes are irrelevant as long as every representable instant lies
between them, which is a type invariant of `DateTime` recorded here as a
`bounded` hypothesis where a proof needs it.

The `while` loops of `Calendar::offset` and `Schedule::generate` are modelled
with an explicit fuel parameter sized so that the fuelled loop returns `none`
exactly when the Rust loop would never exit (see the doc comments there).
-/

namespace Waterfall

/-- Models `chrono::DateTime::<Utc>::MIN_UTC` (a finite sentinel). -/
def MIN_TIME : Int := -(2 ^ 62)

/-- Models `chrono::DateTime::<Utc>::MAX_UTC` (a finite sentinel). -/
def MAX_TIME : Int := 2 ^ 62

/-- Half-open interval `(start, stop]`.  The field `stop` models the Rust
field `end` (a reserved word in Lean).  From `src/interval.rs`. -/
structure Interval where
  start : Int
  stop : Int
deriving DecidableEq, Repr

namespace Interval

/-- `Interval::new`: swaps the endpoints when given in decreasing order. -/
def new (start stop : Int) : Interval :=
  if start > stop then ⟨stop, start⟩ else ⟨start, stop⟩

/-- `Interval::is_empty`. -/
def is_empty (i : Interval) : Prop := i.start = i.stop

instance (i : Interval) : Decidable i.is_empty :=
  inferInstanceAs (Decidable (_ = _))

/-- `Interval::contains`: half-open on the left, `start < dt && dt <= end`. -/
def contains (i : Interval) (dt : Int) : Prop := i.start < dt ∧ dt ≤ i.stop

instance (i : Interval) (dt : Int) : Decidable (i.contains dt) :=
  inferInstanceAs (Decidable (_ ∧ _))

/-- `Interval::has_subset`: `other` is a subset of this interval. -/
def has_subset (i other : Interval) : Prop :=
  i.start ≤ other.start ∧ other.stop ≤ i.stop

instance (i other : Interval) : Decidable (i.has_subset other) :=
  inferInstanceAs (Decidable (_ ∧ _))

/-- `Interval::is_contiguous`: `other` overlaps or is immediately adjacent. -/
def is_contiguous (i other : Interval) : Prop :=
  (i.start ≤ other.start ∧ other.start ≤ i.stop) ∨
    (other.start ≤ i.start ∧ i.start ≤ other.stop)

instance (i other : Interval) : Decidable (i.is_contiguous other) :=
  inferInstanceAs (Decidable (_ ∨ _))

/-- `Interval::is_disjoint`. -/
def is_disjoint (i other : Interval) : Prop :=
  i.stop ≤ other.start ∨ other.stop ≤ i.start

instance (i other : Interval) : Decidable (i.is_disjoint other) :=
  inferInstanceAs (Decidable (_ ∨ _))

/-- `Interval::intersection`. -/
def intersection (i other : Interval) : Interval :=
  if i.is_disjoint other then Interval.new i.start i.start
  else ⟨max i.start other.start, min i.stop other.stop⟩

/-- The order on intervals derived by Rust's `#[derive(Ord)]`:
lexicographic on `(start, end)`. -/
def le (a b : Interval) : Prop :=
  a.start < b.start ∨ (a.start = b.start ∧ a.stop ≤ b.stop)

instance : DecidableRel Interval.le := fun _ _ =>
  inferInstanceAs (Decidable (_ ∨ _))

instance : IsTotal Interval Interval.le :=
  ⟨by
    intro a b
    unfold Interval.le
    omega⟩

instance : IsTrans Interval Interval.le :=
  ⟨by
    intro a b c hab hbc
    unfold Interval.le at *
    omega⟩

theorem new_of_le {a b : Int} (h : a ≤ b) : Interval.new a b = ⟨a, b⟩ := by
  unfold Interval.new
  simp [show ¬ a > b by omega]

end Interval

/-! ## IntervalSet (`src/interval_set.rs`)

`IntervalSet` is a newtype around `Vec<Interval>`; we model it as
`List Interval` and each method as a function on such lists. -/

namespace IntervalSet

/-- `IntervalSet::new`. -/
def new : List Interval := []

/-- `IntervalSet::start`. -/
def startO (l : List Interval) : Option Int := l.head?.map (·.start)

/-- `IntervalSet::end`. -/
def endO (l : List Interval) : Option Int := l.getLast?.map (·.stop)

/-- `IntervalSet::has_subset`. -/
def has_subset (l : List Interval) (interval : Interval) : Prop :=
  ∃ x ∈ l, x.has_subset interval

instance (l : List Interval) (i : Interval) : Decidable (has_subset l i) :=
  inferInstanceAs (Decidable (∃ _ ∈ _, _))

/-- `IntervalSet::contains`. -/
def containsT (l : List Interval) (dt : Int) : Prop :=
  ∃ x ∈ l, x.contains dt

/-- One step of the fold inside `IntervalSet::coalesce`: if the accumulator's
last member is not contiguous with the next interval, push it; otherwise
extend the last member's `end`. -/
def coalesceStep (acc : List Interval) (int : Interval) : List Interval :=
  match acc.getLast? with
  | none => [int]
  | some lst =>
    if ¬ lst.is_contiguous int then acc ++ [int]
    else acc.dropLast ++ [⟨lst.start, int.stop⟩]

/-- `IntervalSet::coalesce`: sort (by the derived lexicographic order), drop
empty intervals, then fold contiguous neighbours together. -/
def coalesce (l : List Interval) : List Interval :=
  ((l.insertionSort Interval.le).filter (fun x => decide ¬ x.is_empty)).foldl
    coalesceStep []

/-- `IntervalSet::insert`: push, and coalesce only when the new interval is
contiguous with an existing member. -/
def insert (l : List Interval) (interval : Interval) : List Interval :=
  if ∃ intv ∈ l, intv.is_contiguous interval then coalesce (l ++ [interval])
  else l ++ [interval]

/-- `IntervalSet::merge`. -/
def merge (l other : List Interval) : List Interval := coalesce (l ++ other)

/-- `IntervalSet::union`. -/
def union (l other : List Interval) : List Interval := coalesce (l ++ other)

/-- `IntervalSet::intersection`: all pairwise intersections, empties dropped,
then coalesce. -/
def intersection (l other : List Interval) : List Interval :=
  coalesce (l.foldl
    (fun acc x => acc ++ (other.map (fun y => x.intersection y)).filter
      (fun i => decide ¬ i.is_empty))
    [])

/-- The loop body of `IntervalSet::complement` together with the trailing
`if last_end != MAX_TIME` push. -/
def complementLoop : Int → List Interval → List Interval
  | last_end, [] =>
    if last_end ≠ MAX_TIME then [Interval.new last_end MAX_TIME] else []
  | last_end, intv :: rest =>
    if intv.start = MIN_TIME then complementLoop intv.stop rest
    else Interval.new last_end intv.start :: complementLoop intv.stop rest

/-- `IntervalSet::complement`. -/
def complement (l : List Interval) : List Interval :=
  if l = [] then [Interval.new MIN_TIME MAX_TIME]
  else complementLoop MIN_TIME l

/-- `IntervalSet::difference` = `intersection(self, complement(other))`. -/
def difference (l other : List Interval) : List Interval :=
  intersection l (complement other)

/-- `From<Vec<Interval>> for IntervalSet`: wrap and coalesce. -/
def fromVec (intervals : List Interval) : List Interval := coalesce intervals

end IntervalSet

/-! ### The canonical-form invariant -/

/-- The canonical form the specification claims for `IntervalSet` members:
sorted by `start`, no empty member, pairwise disjoint and non-contiguous. -/
def canonicalForm (l : List Interval) : Prop :=
  l.Pairwise (fun a b => a.start ≤ b.start) ∧
    (∀ i ∈ l, ¬ i.is_empty) ∧
    l.Pairwise (fun a b => a.is_disjoint b ∧ ¬ a.is_contiguous b)

instance (l : List Interval) : Decidable (canonicalForm l) :=
  inferInstanceAs (Decidable (_ ∧ _ ∧ _))

/-- Working form of the invariant: consecutive members leave a gap, and every
member is non-empty.  Equivalent to `canonicalForm`. -/
def canon (l : List Interval) : Prop :=
  l.Chain' (fun a b => a.stop < b.start) ∧ ∀ i ∈ l, i.start < i.stop

/-- Intervals within the sentinel bounds — a type invariant of
`DateTime<Utc>` in the source. -/
def boundedSet (l : List Interval) : Prop :=
  ∀ i ∈ l, MIN_TIME ≤ i.start ∧ i.stop ≤ MAX_TIME

instance (l : List Interval) : Decidable (boundedSet l) :=
  inferInstanceAs (Decidable (∀ _ ∈ _, _))

theorem canon_cons (x : Interval) (xs : List Interval) (h : canon (x :: xs)) :
    canon xs ∧ x.start < x.stop ∧ ∀ b ∈ xs, x.stop < b.start := by
  obtain ⟨hc, hne⟩ := h
  rw [List.chain'_cons'] at hc
  obtain ⟨hx, hxs⟩ := hc
  refine ⟨⟨hxs, fun i hi => hne i (List.mem_cons_of_mem _ hi)⟩, hne x (by simp), ?_⟩
  intro b hb
  induction xs generalizing x with
  | nil => cases hb
  | cons y ys ih =>
    have hy : x.stop < y.start := hx y rfl
    rw [List.mem_cons] at hb
    rcases hb with rfl | hb
    · exact hy
    · have hyy : y.start < y.stop := hne y (by simp)
      rw [List.chain'_cons'] at hxs
      have := ih y (fun i hi => hne i (by simp [hi])) hxs.1 hxs.2 hb
      omega

theorem canon_pairwise_gap {l : List Interval} (h : canon l) :
    l.Pairwise (fun a b => a.stop < b.start) := by
  induction l with
  | nil => exact List.Pairwise.nil
  | cons x xs ih =>
    obtain ⟨hxs, _, hgap⟩ := canon_cons x xs h
    exact List.Pairwise.cons hgap (ih hxs)

/-- A `canon` list satisfies the canonical form the spec describes. -/
theorem canon_canonicalForm {l : List Interval} (h : canon l) :
    canonicalForm l := by
  have hg := canon_pairwise_gap h
  obtain ⟨_, hne⟩ := h
  refine ⟨?_, ?_, ?_⟩
  · refine hg.imp_of_mem ?_
    intro a b ha hb hab
    have := hne a ha
    omega
  · intro i hi
    have := hne i hi
    unfold Interval.is_empty
    omega
  · refine hg.imp_of_mem ?_
    intro a b ha hb hab
    have h1 := hne a ha
    have h2 := hne b hb
    unfold Interval.is_disjoint Interval.is_contiguous
    omega

/-- Conversely, the canonical form plus the `Interval::new` invariant
`start ≤ end` gives the working form. -/
theorem canonicalForm_canon {l : List Interval} (h : canonicalForm l)
    (hle : ∀ i ∈ l, i.start ≤ i.stop) : canon l := by
  obtain ⟨hs, hne, hdc⟩ := h
  constructor
  · apply List.Pairwise.chain'
    have h2 := hs.and hdc
    refine h2.imp_of_mem ?_
    intro a b ha hb hab
    obtain ⟨hlt, hdis, hnc⟩ := hab
    have h1 : ¬ a.is_empty := hne a ha
    have h3 := hle a ha
    unfold Interval.is_empty at h1
    unfold Interval.is_disjoint at hdis
    unfold Interval.is_contiguous at hnc
    omega
  · intro i hi
    have h1 : ¬ i.is_empty := hne i hi
    have h3 := hle i hi
    unfold Interval.is_empty at h1
    omega

/-! ### Coalesce establishes the canonical form -/

namespace IntervalSet

/-- Recursive form of the fold inside `coalesce`: the fold only ever reads or
rewrites the accumulator's last element, so it is the in-order merge of the
current interval with the remaining sorted list. -/
def coalesceAux : Interval → List Interval → List Interval
  | cur, [] => [cur]
  | cur, int :: rest =>
    if cur.is_contiguous int then coalesceAux ⟨cur.start, int.stop⟩ rest
    else cur :: coalesceAux int rest

theorem coalesceStep_concat (acc0 : List Interval) (cur int : Interval) :
    coalesceStep (acc0 ++ [cur]) int =
      if ¬ cur.is_contiguous int then (acc0 ++ [cur]) ++ [int]
      else acc0 ++ [⟨cur.start, int.stop⟩] := by
  unfold coalesceStep
  rw [List.getLast?_concat]
  simp [List.dropLast_concat]

theorem foldl_coalesceStep_eq :
    ∀ (l acc0 : List Interval) (cur : Interval),
      l.foldl coalesceStep (acc0 ++ [cur]) = acc0 ++ coalesceAux cur l := by
  intro l
  induction l with
  | nil => intro acc0 cur; simp [coalesceAux]
  | cons int rest ih =>
    intro acc0 cur
    rw [List.foldl_cons, coalesceStep_concat]
    by_cases hc : cur.is_contiguous int
    · simp only [hc, not_true_eq_false, if_false]
      rw [ih acc0 ⟨cur.start, int.stop⟩]
      simp [coalesceAux, hc]
    · simp only [hc, not_false_eq_true, if_true]
      rw [ih (acc0 ++ [cur]) int]
      simp [coalesceAux, hc]

theorem coalesceAux_canon :
    ∀ (l : List Interval) (cur : Interval),
      List.Sorted Interval.le (cur :: l) →
      (∀ x ∈ cur :: l, x.start < x.stop) →
      canon (coalesceAux cur l) ∧
        ∃ z l', coalesceAux cur l = z :: l' ∧ z.start = cur.start := by
  intro l
  induction l with
  | nil =>
    intro cur _ hne
    unfold coalesceAux
    refine ⟨⟨List.chain'_singleton _, ?_⟩, cur, [], rfl, rfl⟩
    intro i hi
    rw [List.mem_singleton] at hi
    subst hi
    exact hne i (by simp)
  | cons int rest ih =>
    intro cur hsort hne
    have hcur_int : Interval.le cur int := List.rel_of_sorted_cons hsort int (by simp)
    have hsort' : List.Sorted Interval.le (int :: rest) := hsort.of_cons
    unfold coalesceAux
    by_cases hc : cur.is_contiguous int
    · simp only [hc, if_true]
      have hint : int.start < int.stop := hne int (by simp)
      have hext_sorted : List.Sorted Interval.le ((⟨cur.start, int.stop⟩ : Interval) :: rest) := by
        apply List.sorted_cons.mpr
        refine ⟨?_, hsort'.of_cons⟩
        intro b hb
        have h1 : Interval.le int b := List.rel_of_sorted_cons hsort' b hb
        unfold Interval.le at *
        simp only at *
        omega
      have hext_ne : ∀ x ∈ (⟨cur.start, int.stop⟩ : Interval) :: rest, x.start < x.stop := by
        intro x hx
        rw [List.mem_cons] at hx
        rcases hx with rfl | hx
        · unfold Interval.le at hcur_int
          simp only
          omega
        · exact hne x (by simp [hx])
      obtain ⟨h1, z, l', hz, hzs⟩ := ih ⟨cur.start, int.stop⟩ hext_sorted hext_ne
      exact ⟨h1, z, l', hz, hzs⟩
    · simp only [hc, if_false]
      have hgap : cur.stop < int.start := by
        unfold Interval.is_contiguous at hc
        unfold Interval.le at hcur_int
        omega
      have hne' : ∀ x ∈ int :: rest, x.start < x.stop :=
        fun x hx => hne x (by simp [List.mem_cons] at hx ⊢; tauto)
      obtain ⟨⟨hch, hmem⟩, z, l', hz, hzs⟩ := ih int hsort' hne'
      rw [hz]
      refine ⟨⟨?_, ?_⟩, cur, z :: l', rfl, rfl⟩
      · rw [List.chain'_cons]
        refine ⟨by omega, ?_⟩
        rw [hz] at hch
        exact hch
      · intro i hi
        rw [List.mem_cons] at hi
        rcases hi with rfl | hi
        · exact hne i (by simp)
        · rw [hz] at hmem
          exact hmem i hi

/-- `coalesce` always produces the working canonical form, provided every
input interval satisfies the `Interval::new` invariant `start ≤ end`. -/
theorem coalesce_canon (l : List Interval)
    (hpro : ∀ i ∈ l, i.start ≤ i.stop) : canon (coalesce l) := by
  unfold coalesce
  set m := (l.insertionSort Interval.le).filter (fun x => decide ¬ x.is_empty) with hm
  have hms : List.Sorted Interval.le m := by
    rw [hm]
    exact (List.sorted_insertionSort Interval.le l).filter _
  have hmne : ∀ x ∈ m, x.start < x.stop := by
    intro x hx
    rw [hm, List.mem_filter] at hx
    obtain ⟨hx1, hx2⟩ := hx
    rw [List.mem_insertionSort] at hx1
    have h1 := hpro x hx1
    have h2 : ¬ x.is_empty := by
      simpa using hx2
    unfold Interval.is_empty at h2
    omega
  cases hmm : m with
  | nil => exact ⟨List.chain'_nil, by simp⟩
  | cons x xs =>
    rw [hmm] at hms hmne
    have hstep : coalesceStep [] x = [] ++ [x] := by
      unfold coalesceStep
      simp
    rw [List.foldl_cons, hstep, foldl_coalesceStep_eq xs [] x]
    exact ((coalesceAux_canon xs x hms hmne).1)

end IntervalSet

/-! ### Complement: canonical form and involution -/

theorem MIN_lt_MAX : MIN_TIME < MAX_TIME := by
  unfold MIN_TIME MAX_TIME
  norm_num

theorem head?_mem {α : Type} {l : List α} {z : α} (hz : l.head? = some z) :
    z ∈ l := by
  cases l with
  | nil => cases hz
  | cons a t =>
    rw [List.head?_cons, Option.some.injEq] at hz
    subst hz
    exact List.mem_cons_self _ _

/-- Every interval built through `Interval::new` is properly ordered; the
representation invariant assumed of interval inputs below. -/
def properSet (l : List Interval) : Prop := ∀ i ∈ l, i.start ≤ i.stop

instance (l : List Interval) : Decidable (properSet l) :=
  inferInstanceAs (Decidable (∀ _ ∈ _, _))

theorem Interval.new_proper (a b : Int) :
    (Interval.new a b).start ≤ (Interval.new a b).stop := by
  unfold Interval.new
  split <;> simp <;> omega

theorem Interval.intersection_proper (i other : Interval)
    (h1 : i.start ≤ i.stop) (h2 : other.start ≤ other.stop) :
    (i.intersection other).start ≤ (i.intersection other).stop := by
  unfold Interval.intersection
  split
  · exact Interval.new_proper _ _
  · rename_i hd
    unfold Interval.is_disjoint at hd
    simp only
    omega

namespace IntervalSet

theorem complementLoop_proper :
    ∀ (l : List Interval) (e : Int), properSet (complementLoop e l) := by
  intro l
  induction l with
  | nil =>
    intro e i hi
    unfold complementLoop at hi
    split at hi
    · rw [List.mem_singleton] at hi
      subst hi
      exact Interval.new_proper _ _
    · cases hi
  | cons j rest ih =>
    intro e i hi
    unfold complementLoop at hi
    split at hi
    · exact ih j.stop i hi
    · rw [List.mem_cons] at hi
      rcases hi with rfl | hi
      · exact Interval.new_proper _ _
      · exact ih j.stop i hi

/-- Structure of the complement loop on a canonical bounded input whose head
lies strictly beyond `e`: the output is again canonical and bounded, and is
either empty (exactly when the input is empty and `e = MAX_TIME`) or starts
at `e`. -/
theorem complementLoop_spec :
    ∀ (l : List Interval) (e : Int), canon l → boundedSet l →
      MIN_TIME ≤ e → e ≤ MAX_TIME →
      (∀ z, l.head? = some z → e < z.start) →
      canon (complementLoop e l) ∧ boundedSet (complementLoop e l) ∧
        ((l = [] ∧ e = MAX_TIME ∧ complementLoop e l = []) ∨
          ∃ z l', complementLoop e l = z :: l' ∧ z.start = e) := by
  intro l
  induction l with
  | nil =>
    intro e _ _ he1 he2 _
    unfold complementLoop
    by_cases he : e = MAX_TIME
    · simp only [he, ne_eq, not_true_eq_false, if_false]
      refine ⟨⟨List.chain'_nil, by simp⟩, by simp [boundedSet], Or.inl ?_⟩
      simp
    · simp only [ne_eq, he, not_false_eq_true, if_true]
      rw [Interval.new_of_le (by omega)]
      refine ⟨⟨List.chain'_singleton _, ?_⟩, ?_, Or.inr ⟨_, _, rfl, rfl⟩⟩
      · intro i hi
        rw [List.mem_singleton] at hi
        subst hi
        simp only
        omega
      · intro i hi
        rw [List.mem_singleton] at hi
        subst hi
        simp only
        exact ⟨he1, le_refl _⟩
  | cons j rest ih =>
    intro e hc hb he1 he2 hhead
    have hj : e < j.start := hhead j rfl
    have hjb := hb j (List.mem_cons_self _ _)
    obtain ⟨hcrest, hjne, hgap⟩ := canon_cons j rest hc
    have hbrest : boundedSet rest := fun i hi => hb i (List.mem_cons_of_mem _ hi)
    have hmin : j.start ≠ MIN_TIME := by omega
    unfold complementLoop
    simp only [hmin, if_false]
    obtain ⟨ih1, ih2, ih3⟩ := ih j.stop hcrest hbrest (by omega) (by omega)
      (fun z hz => hgap z (head?_mem hz))
    rw [Interval.new_of_le (by omega)]
    refine ⟨⟨?_, ?_⟩, ?_, Or.inr ⟨_, _, rfl, rfl⟩⟩
    · rcases ih3 with ⟨_, _, hnil⟩ | ⟨z, l', hz, hzs⟩
      · rw [hnil]
        exact List.chain'_singleton _
      · rw [hz]
        rw [hz] at ih1
        rw [List.chain'_cons]
        exact ⟨by simp only [hzs]; omega, ih1.1⟩
    · intro i hi
      rw [List.mem_cons] at hi
      rcases hi with rfl | hi
      · simp only
        omega
      · exact ih1.2 i hi
    · intro i hi
      rw [List.mem_cons] at hi
      rcases hi with rfl | hi
      · simp only
        exact ⟨he1, by omega⟩
      · exact ih2 i hi

/-- `complement` of a canonical bounded set is canonical and bounded. -/
theorem complement_canon (l : List Interval) (hc : canon l) (hb : boundedSet l) :
    canon (complement l) ∧ boundedSet (complement l) := by
  unfold complement
  cases l with
  | nil =>
    rw [if_pos rfl, Interval.new_of_le (le_of_lt MIN_lt_MAX)]
    have h1 := MIN_lt_MAX
    refine ⟨⟨List.chain'_singleton _, ?_⟩, ?_⟩
    · intro i hi
      rw [List.mem_singleton] at hi
      subst hi
      simpa using h1
    · intro i hi
      rw [List.mem_singleton] at hi
      subst hi
      simp
  | cons j rest =>
    rw [if_neg (List.cons_ne_nil j rest)]
    have hjb := hb j (List.mem_cons_self _ _)
    obtain ⟨hcrest, hjne, hgap⟩ := canon_cons j rest hc
    have hbrest : boundedSet rest := fun i hi => hb i (List.mem_cons_of_mem _ hi)
    have hspec := complementLoop_spec rest j.stop hcrest hbrest (by omega) (by omega)
      (fun z hz => hgap z (head?_mem hz))
    obtain ⟨ih1, ih2, ih3⟩ := hspec
    unfold complementLoop
    by_cases hj : j.start = MIN_TIME
    · simp only [hj, if_true]
      exact ⟨ih1, ih2⟩
    · simp only [hj, if_false]
      rw [Interval.new_of_le (by omega)]
      refine ⟨⟨?_, ?_⟩, ?_⟩
      · rcases ih3 with ⟨_, _, hnil⟩ | ⟨z, l', hz, hzs⟩
        · rw [hnil]
          exact List.chain'_singleton _
        · rw [hz]
          rw [hz] at ih1
          rw [List.chain'_cons]
          exact ⟨by simp only [hzs]; omega, ih1.1⟩
      · intro i hi
        rw [List.mem_cons] at hi
        rcases hi with rfl | hi
        · simp only
          omega
        · exact ih1.2 i hi
      · intro i hi
        rw [List.mem_cons] at hi
        rcases hi with rfl | hi
        · simp only
          omega
        · exact ih2 i hi

/-- Key identity behind the involution: running the complement loop twice
around a canonical bounded tail reconstructs the tail, prefixed by the
interval `(f, e]` when that interval is non-degenerate. -/
theorem complementLoop_twice :
    ∀ (l : List Interval) (f e : Int), canon l → boundedSet l →
      MIN_TIME ≤ f → f ≤ e → e ≤ MAX_TIME →
      (∀ z, l.head? = some z → e < z.start) →
      (f = e → e = MIN_TIME) →
      complementLoop f (complementLoop e l) =
        if e = MIN_TIME then l else Interval.new f e :: l := by
  intro l
  induction l with
  | nil =>
    intro f e _ _ hf1 hfe he2 _ hdeg
    have hMM := MIN_lt_MAX
    by_cases he : e = MAX_TIME
    · have hemin : e ≠ MIN_TIME := by omega
      have hflt : f < e := by
        rcases eq_or_lt_of_le hfe with heq | h
        · exact absurd (hdeg heq) hemin
        · exact h
      have h1 : complementLoop e ([] : List Interval) = [] := by
        simp [complementLoop, he]
      have h2 : complementLoop f ([] : List Interval) = [Interval.new f MAX_TIME] := by
        have hne : f ≠ MAX_TIME := by omega
        simp [complementLoop, hne]
      rw [h1, h2, if_neg hemin, he]
    · have h1 : complementLoop e ([] : List Interval) = [Interval.new e MAX_TIME] := by
        simp [complementLoop, he]
      rw [h1, Interval.new_of_le (by omega)]
      by_cases hemin : e = MIN_TIME
      · have h2 : complementLoop f [(⟨e, MAX_TIME⟩ : Interval)] = [] := by
          simp [complementLoop, hemin]
        rw [h2, if_pos hemin]
      · have hflt : f < e := by
          rcases eq_or_lt_of_le hfe with heq | h
          · exact absurd (hdeg heq) hemin
          · exact h
        have h2 : complementLoop f [(⟨e, MAX_TIME⟩ : Interval)] = [Interval.new f e] := by
          simp [complementLoop, hemin]
        rw [h2, if_neg hemin]
  | cons j rest ih =>
    intro f e hc hb hf1 hfe he2 hhead hdeg
    have hj : e < j.start := hhead j rfl
    have hjb := hb j (List.mem_cons_self _ _)
    obtain ⟨hcrest, hjne, hgap⟩ := canon_cons j rest hc
    have hbrest : boundedSet rest := fun i hi => hb i (List.mem_cons_of_mem _ hi)
    have hmin : j.start ≠ MIN_TIME := by omega
    have hstep : complementLoop e (j :: rest) =
        Interval.new e j.start :: complementLoop j.stop rest := by
      simp [complementLoop, hmin]
    rw [hstep, Interval.new_of_le (by omega)]
    have hinner := ih j.start j.stop hcrest hbrest (by omega) (by omega) (by omega)
      (fun z hz => hgap z (head?_mem hz)) (fun h => by omega)
    rw [if_neg (by omega : ¬ j.stop = MIN_TIME)] at hinner
    have hjeta : Interval.new j.start j.stop = j := by
      rw [Interval.new_of_le (by omega)]
    rw [hjeta] at hinner
    have hstep2 : complementLoop f ((⟨e, j.start⟩ : Interval) :: complementLoop j.stop rest) =
        if e = MIN_TIME then complementLoop j.start (complementLoop j.stop rest)
        else Interval.new f e :: complementLoop j.start (complementLoop j.stop rest) := by
      simp only [complementLoop]
    rw [hstep2, hinner]

end IntervalSet

namespace IntervalSet

theorem mem_foldl_append {α β : Type} (g : α → List β) :
    ∀ (a : List α) (acc : List β) (i : β),
      (i ∈ a.foldl (fun acc x => acc ++ g x) acc) ↔ i ∈ acc ∨ ∃ x ∈ a, i ∈ g x := by
  intro a
  induction a with
  | nil => intro acc i; simp
  | cons x xs ih =>
    intro acc i
    rw [List.foldl_cons, ih]
    simp only [List.mem_append, List.mem_cons]
    constructor
    · rintro ((h | h) | ⟨y, hy, h⟩)
      · exact Or.inl h
      · exact Or.inr ⟨x, Or.inl rfl, h⟩
      · exact Or.inr ⟨y, Or.inr hy, h⟩
    · rintro (h | ⟨y, (rfl | hy), h⟩)
      · exact Or.inl (Or.inl h)
      · exact Or.inl (Or.inr h)
      · exact Or.inr ⟨y, hy, h⟩

theorem intersection_canon (a b : List Interval)
    (hpa : properSet a) (hpb : properSet b) : canon (intersection a b) := by
  unfold intersection
  apply coalesce_canon
  intro i hi
  rw [mem_foldl_append] at hi
  rcases hi with h | ⟨x, hx, hig⟩
  · cases h
  · rw [List.mem_filter] at hig
    obtain ⟨him, _⟩ := hig
    rw [List.mem_map] at him
    obtain ⟨y, hy, rfl⟩ := him
    exact Interval.intersection_proper x y (hpa x hx) (hpb y hy)

theorem complement_proper (l : List Interval) : properSet (complement l) := by
  unfold complement
  split
  · intro i hi
    rw [List.mem_singleton] at hi
    subst hi
    exact Interval.new_proper _ _
  · exact complementLoop_proper l MIN_TIME

end IntervalSet

/-- C1.  The claim as frozen fails for `insert`: when the inserted interval is
not contiguous with any member, `IntervalSet::insert` merely appends it, so
the member list need not stay canonical (counterexample below: appending the
empty interval `(3, 3]`).  Amended claim: `merge`, `union`, `intersection`,
`difference`, `complement` and `From<Vec<Interval>>` always leave the member
list sorted by `start`, free of empty intervals, and pairwise disjoint and
non-contiguous (for interval inputs satisfying the `Interval::new` invariant
`start ≤ end`, and for `complement` a canonical, bounded input); `insert`
guarantees this only when the inserted interval is contiguous with an
existing member, in which case it coalesces. -/
theorem claim_C1_canonical_after_operations
    (a b : List Interval) (intv : Interval)
    (hpa : properSet a) (hpb : properSet b) (hpi : intv.start ≤ intv.stop)
    (hca : canonicalForm a) (hba : boundedSet a) :
    canonicalForm (IntervalSet.fromVec a) ∧
    canonicalForm (IntervalSet.merge a b) ∧
    canonicalForm (IntervalSet.union a b) ∧
    canonicalForm (IntervalSet.intersection a b) ∧
    canonicalForm (IntervalSet.difference a b) ∧
    canonicalForm (IntervalSet.complement a) ∧
    ((∃ j ∈ a, j.is_contiguous intv) → canonicalForm (IntervalSet.insert a intv)) := by
  have hpab : properSet (a ++ b) := by
    intro i hi
    rw [List.mem_append] at hi
    rcases hi with h | h
    · exact hpa i h
    · exact hpb i h
  have hpai : properSet (a ++ [intv]) := by
    intro i hi
    rw [List.mem_append, List.mem_singleton] at hi
    rcases hi with h | rfl
    · exact hpa i h
    · exact hpi
  refine ⟨?_, ?_, ?_, ?_, ?_, ?_, ?_⟩
  · exact canon_canonicalForm (IntervalSet.coalesce_canon a hpa)
  · exact canon_canonicalForm (IntervalSet.coalesce_canon _ hpab)
  · exact canon_canonicalForm (IntervalSet.coalesce_canon _ hpab)
  · exact canon_canonicalForm (IntervalSet.intersection_canon a b hpa hpb)
  · exact canon_canonicalForm (IntervalSet.intersection_canon a _ hpa
      (IntervalSet.complement_proper b))
  · exact canon_canonicalForm
      ((IntervalSet.complement_canon a (canonicalForm_canon hca hpa) hba).1)
  · intro hcontig
    unfold IntervalSet.insert
    rw [if_pos hcontig]
    exact canon_canonicalForm (IntervalSet.coalesce_canon _ hpai)

/-- C1, counterexample to the claim as frozen: inserting the empty interval
`(3, 3]` into the canonical set `{(0, 1]}` appends it without coalescing, so
the resulting member list contains an empty interval. -/
theorem claim_C1_counterexample :
    ¬ canonicalForm (IntervalSet.insert [(⟨0, 1⟩ : Interval)] ⟨3, 3⟩) := by
  decide

theorem claim_C1_witness :
    (properSet [(⟨0, 5⟩ : Interval), ⟨10, 20⟩] ∧ properSet [(⟨3, 12⟩ : Interval)] ∧
      (⟨4, 7⟩ : Interval).start ≤ (⟨4, 7⟩ : Interval).stop ∧
      canonicalForm [(⟨0, 5⟩ : Interval), ⟨10, 20⟩] ∧
      boundedSet [(⟨0, 5⟩ : Interval), ⟨10, 20⟩]) ∧
    (canonicalForm (IntervalSet.fromVec [(⟨0, 5⟩ : Interval), ⟨10, 20⟩]) ∧
      canonicalForm (IntervalSet.merge [(⟨0, 5⟩ : Interval), ⟨10, 20⟩] [⟨3, 12⟩]) ∧
      canonicalForm (IntervalSet.union [(⟨0, 5⟩ : Interval), ⟨10, 20⟩] [⟨3, 12⟩]) ∧
      canonicalForm (IntervalSet.intersection [(⟨0, 5⟩ : Interval), ⟨10, 20⟩] [⟨3, 12⟩]) ∧
      canonicalForm (IntervalSet.difference [(⟨0, 5⟩ : Interval), ⟨10, 20⟩] [⟨3, 12⟩]) ∧
      canonicalForm (IntervalSet.complement [(⟨0, 5⟩ : Interval), ⟨10, 20⟩]) ∧
      ((∃ j ∈ [(⟨0, 5⟩ : Interval), ⟨10, 20⟩], j.is_contiguous ⟨4, 7⟩) →
        canonicalForm (IntervalSet.insert [(⟨0, 5⟩ : Interval), ⟨10, 20⟩] ⟨4, 7⟩))) :=
  ⟨⟨by decide, by decide, by decide, by decide, by decide⟩,
    claim_C1_canonical_after_operations [⟨0, 5⟩, ⟨10, 20⟩] [⟨3, 12⟩] ⟨4, 7⟩
      (by decide) (by decide) (by decide) (by decide) (by decide)⟩

/-- C2.  `complement` is an involution on canonical `IntervalSet`s:
`complement (complement A) = A` whenever `A` is in canonical form, its
members satisfy the `Interval::new` invariant `start ≤ end`, and its
endpoints lie within the representable `DateTime` range (both are type
invariants of the Rust representation). -/
theorem claim_C2_complement_involution (A : List Interval)
    (hcf : canonicalForm A) (hp : properSet A) (hb : boundedSet A) :
    IntervalSet.complement (IntervalSet.complement A) = A := by
  have hc : canon A := canonicalForm_canon hcf hp
  have hMM := MIN_lt_MAX
  cases A with
  | nil =>
    have h1 : IntervalSet.complement ([] : List Interval) =
        [(⟨MIN_TIME, MAX_TIME⟩ : Interval)] := by
      simp [IntervalSet.complement, Interval.new_of_le (le_of_lt MIN_lt_MAX)]
    rw [h1]
    unfold IntervalSet.complement
    rw [if_neg (List.cons_ne_nil _ _)]
    simp [IntervalSet.complementLoop]
  | cons j rest =>
    have hjb := hb j (List.mem_cons_self _ _)
    obtain ⟨hcrest, hjne, hgap⟩ := canon_cons j rest hc
    have hbrest : boundedSet rest := fun i hi => hb i (List.mem_cons_of_mem _ hi)
    have h1 : IntervalSet.complement (j :: rest) =
        IntervalSet.complementLoop MIN_TIME (j :: rest) := by
      unfold IntervalSet.complement
      rw [if_neg (List.cons_ne_nil _ _)]
    by_cases hj : j.start = MIN_TIME
    · have h2 : IntervalSet.complementLoop MIN_TIME (j :: rest) =
          IntervalSet.complementLoop j.stop rest := by
        simp [IntervalSet.complementLoop, hj]
      rw [h1, h2]
      obtain ⟨_, _, hshape⟩ := IntervalSet.complementLoop_spec rest j.stop hcrest
        hbrest (by omega) (by omega) (fun z hz => hgap z (head?_mem hz))
      rcases hshape with ⟨hrnil, hstopmax, hnil⟩ | ⟨z, l', hz, hzs⟩
      · subst hrnil
        rw [hnil]
        have hje : j = (⟨MIN_TIME, MAX_TIME⟩ : Interval) := by
          cases j with
          | mk s t =>
            simp only at hj hstopmax
            rw [hj, hstopmax]
        rw [hje]
        simp [IntervalSet.complement, Interval.new_of_le (le_of_lt MIN_lt_MAX)]
      · have hnn : IntervalSet.complementLoop j.stop rest ≠ [] := by
          rw [hz]
          exact List.cons_ne_nil _ _
        unfold IntervalSet.complement
        rw [if_neg hnn]
        have h4 := IntervalSet.complementLoop_twice rest MIN_TIME j.stop hcrest
          hbrest le_rfl (by omega) (by omega)
          (fun z' hz' => hgap z' (head?_mem hz')) (fun h => h.symm)
        rw [if_neg (by omega : ¬ j.stop = MIN_TIME)] at h4
        rw [h4, Interval.new_of_le (by omega)]
        cases j with
        | mk s t =>
          simp only at hj
          rw [hj]
    · have h4 := IntervalSet.complementLoop_twice (j :: rest) MIN_TIME MIN_TIME hc
        hb le_rfl le_rfl (le_of_lt hMM)
        (fun z hz => by
          rw [List.head?_cons, Option.some.injEq] at hz
          subst hz
          omega)
        (fun _ => rfl)
      rw [if_pos rfl] at h4
      rw [h1]
      have hnn : IntervalSet.complementLoop MIN_TIME (j :: rest) ≠ [] := by
        simp [IntervalSet.complementLoop, hj]
      unfold IntervalSet.complement
      rw [if_neg hnn]
      exact h4

theorem claim_C2_witness :
    (canonicalForm [(⟨2, 5⟩ : Interval), ⟨8, 20⟩] ∧
      properSet [(⟨2, 5⟩ : Interval), ⟨8, 20⟩] ∧
      boundedSet [(⟨2, 5⟩ : Interval), ⟨8, 20⟩]) ∧
    IntervalSet.complement (IntervalSet.complement [(⟨2, 5⟩ : Interval), ⟨8, 20⟩]) =
      [(⟨2, 5⟩ : Interval), ⟨8, 20⟩] :=
  ⟨⟨by decide, by decide, by decide⟩,
    claim_C2_complement_involution [⟨2, 5⟩, ⟨8, 20⟩] (by decide) (by decide) (by decide)⟩

/-! ## Calendar (`src/calendar.rs`)

`NaiveDate` is modelled as `Int` (a day number); the weekday of day `d` is
`d.emod 7`, with day 0 a Monday (`0 = Mon .. 6 = Sun`).  The inner
`while !self.includes(date)` loop of `Calendar::offset` has no bound in the
source; it is modelled by `findIncluded` with an explicit fuel.  The fuel
`fuelBound` covers every date the Rust loop could ever stop at (any `include`
entry, or a mask day within each週 — at most `exclude.length` mask candidates
can be excluded), so the fuelled loop returns `none` exactly when the Rust
loop never exits. -/

/-- `default_dow_set()`: Monday through Friday. -/
def default_dow_set : List Int := [0, 1, 2, 3, 4]

/-- `Calendar`: weekday mask, excluded dates, included dates.  The Rust field
`include` is a reserved word in Lean and is called `includeDates` here. -/
structure Calendar where
  mask : List Int
  exclude : List Int
  includeDates : List Int

/-- `Calendar::new`. -/
def Calendar.new : Calendar := ⟨default_dow_set, [], []⟩

/-- `Calendar::includes`. -/
def Calendar.includes (c : Calendar) (date : Int) : Prop :=
  if date ∈ c.exclude then False
  else if date ∈ c.includeDates then True
  else date % 7 ∈ c.mask

instance (c : Calendar) (d : Int) : Decidable (c.includes d) := by
  unfold Calendar.includes
  infer_instance

/-- Fuel that covers every date the scanning loop of `Calendar::offset` could
stop at, starting from `d`: all `include` entries plus one non-excluded mask
day (at most `exclude.length` mask候 candidates can be excluded, and a mask day
occurs every 7 days). -/
def Calendar.fuelBound (c : Calendar) (d : Int) : Nat :=
  7 * (c.exclude.length + 1) +
    (c.includeDates.map (fun x => (x - d).natAbs)).foldr max 0 + 1

/-- The inner `while !self.includes(date) { date += dir }` loop of
`Calendar::offset`, with explicit fuel. -/
def Calendar.findIncluded (c : Calendar) (dir : Int) : Nat → Int → Option Int
  | 0, _ => none
  | fuel + 1, d => if c.includes d then some d else c.findIncluded dir fuel (d + dir)

/-- The outer `while offset != 0` loop of `Calendar::offset`: step one day in
direction `dir`, scan to the next included date, repeat. -/
def Calendar.offsetGo (c : Calendar) (dir : Int) : Nat → Int → Option Int
  | 0, d => some d
  | n + 1, d =>
    match c.findIncluded dir (c.fuelBound (d + dir)) (d + dir) with
    | none => none
    | some d' => c.offsetGo dir n d'

/-- `Calendar::offset`.  The source sets `incr = if offset < 0 { 1 } else
{ -1 }` and steps by `-incr`; `none` models the inner loop never exiting. -/
def Calendar.offset (c : Calendar) (d : Int) (k : Int) : Option Int :=
  c.offsetGo (if k < 0 then -1 else 1) k.natAbs d

/-- `Calendar::next`. -/
def Calendar.next (c : Calendar) (d : Int) : Option Int := c.offset d 1

/-- `Calendar::prev`. -/
def Calendar.prev (c : Calendar) (d : Int) : Option Int := c.offset d (-1)

namespace Calendar

theorem findIncluded_sound (c : Calendar) (dir : Int) :
    ∀ (fuel : Nat) (d d' : Int), c.findIncluded dir fuel d = some d' →
      c.includes d' ∧ ∃ j : Int, 0 ≤ j ∧ d' = d + dir * j ∧
        ∀ i : Int, 0 ≤ i → i < j → ¬ c.includes (d + dir * i) := by
  intro fuel
  induction fuel with
  | zero => intro d d' h; cases h
  | succ n ih =>
    intro d d' h
    unfold findIncluded at h
    by_cases hinc : c.includes d
    · rw [if_pos hinc, Option.some.injEq] at h
      subst h
      exact ⟨hinc, 0, le_refl _, by ring_nf, by omega⟩
    · rw [if_neg hinc] at h
      obtain ⟨h1, j, hj0, hjd, hjmin⟩ := ih (d + dir) d' h
      refine ⟨h1, j + 1, by omega, by rw [hjd]; ring, ?_⟩
      intro i hi0 hij
      rcases eq_or_lt_of_le hi0 with heq | hlt
      · rw [← heq]
        simpa using hinc
      · have : d + dir * i = (d + dir) + dir * (i - 1) := by ring
        rw [this]
        exact hjmin (i - 1) (by omega) (by omega)

theorem findIncluded_none (c : Calendar) (dir : Int) :
    ∀ (fuel : Nat) (d : Int), c.findIncluded dir fuel d = none →
      ∀ i : Nat, i < fuel → ¬ c.includes (d + dir * i) := by
  intro fuel
  induction fuel with
  | zero => intro d _ i hi; omega
  | succ n ih =>
    intro d h i hi
    unfold findIncluded at h
    by_cases hinc : c.includes d
    · rw [if_pos hinc] at h
      cases h
    · rw [if_neg hinc] at h
      cases i with
      | zero => simpa using hinc
      | succ m =>
        have : d + dir * (Nat.succ m : Nat) = (d + dir) + dir * (m : Nat) := by
          push_cast
          ring
        rw [this]
        exact ih (d + dir) h m (by omega)

/-- Pigeonhole: with a genuine weekday in the mask, some date within
`7 * (exclude.length + 1)` steps in either direction is included. -/
theorem exists_included_near (c : Calendar) {w : Int} (hw : w ∈ c.mask)
    (hw0 : 0 ≤ w) (hw7 : w < 7) (dir : Int) (hdir : dir = 1 ∨ dir = -1)
    (d : Int) :
    ∃ j : Nat, j < 7 * (c.exclude.length + 1) ∧ c.includes (d + dir * j) := by
  by_contra hcon
  push_neg at hcon
  set k := c.exclude.length with hk
  -- the i-th candidate: the mask day reached after j₀ + 7i steps
  have hj0 : ∃ j₀ : Nat, j₀ < 7 ∧ ∀ i : Nat, (d + dir * (j₀ + 7 * i)) % 7 = w := by
    rcases hdir with rfl | rfl
    · refine ⟨((w - d) % 7).toNat, by omega, ?_⟩
      intro i
      omega
    · refine ⟨((d - w) % 7).toNat, by omega, ?_⟩
      intro i
      omega
  obtain ⟨j₀, hj₀7, hj₀w⟩ := hj0
  -- every candidate is excluded
  have hexc : ∀ i : Nat, i < k + 1 → (d + dir * (j₀ + 7 * i)) ∈ c.exclude := by
    intro i hik
    have hlt : j₀ + 7 * i < 7 * (k + 1) := by omega
    have hni := hcon (j₀ + 7 * i) hlt
    unfold includes at hni
    by_contra hnotex
    rw [if_neg (by push_cast at hnotex ⊢; exact hnotex)] at hni
    split at hni
    · exact hni trivial
    · push_cast at hni
      exact hni (by rw [hj₀w i]; exact hw)
  -- pigeonhole: k + 1 distinct dates cannot all fit in a list of length k
  have hinj : Set.InjOn (fun i : Fin (k + 1) => d + dir * (j₀ + 7 * (i : Nat)))
      ↑(Finset.univ : Finset (Fin (k + 1))) := by
    intro i _ j _ hij
    simp only at hij
    rcases hdir with rfl | rfl
    · have : (i : Nat) = (j : Nat) := by omega
      exact Fin.ext this
    · have : (i : Nat) = (j : Nat) := by omega
      exact Fin.ext this
  have hmaps : ∀ i : Fin (k + 1), i ∈ Finset.univ →
      (fun i : Fin (k + 1) => d + dir * (j₀ + 7 * (i : Nat))) i ∈ c.exclude.toFinset := by
    intro i _
    rw [List.mem_toFinset]
    exact hexc i i.isLt
  have hcard := Finset.card_le_card_of_injOn _ hmaps hinj
  rw [Finset.card_fin] at hcard
  have hlen := c.exclude.toFinset_card_le
  omega

theorem findIncluded_success (c : Calendar)
    (hm : ∃ w ∈ c.mask, 0 ≤ w ∧ w < 7) (dir : Int) (hdir : dir = 1 ∨ dir = -1)
    (d : Int) (fuel : Nat) (hfuel : 7 * (c.exclude.length + 1) ≤ fuel) :
    ∃ d', c.findIncluded dir fuel d = some d' := by
  obtain ⟨w, hw, hw0, hw7⟩ := hm
  cases hfind : c.findIncluded dir fuel d with
  | some d' => exact ⟨d', rfl⟩
  | none =>
    obtain ⟨j, hj, hjinc⟩ := exists_included_near c hw hw0 hw7 dir hdir d
    exact absurd hjinc (findIncluded_none c dir fuel d hfind j (by omega))

theorem fuelBound_ge (c : Calendar) (d : Int) :
    7 * (c.exclude.length + 1) ≤ c.fuelBound d := by
  unfold fuelBound
  omega

/-- Full specification of the scanning loop: with a genuine mask weekday it
finds the nearest included date in direction `dir`. -/
theorem findIncluded_spec (c : Calendar)
    (hm : ∃ w ∈ c.mask, 0 ≤ w ∧ w < 7) (dir : Int) (hdir : dir = 1 ∨ dir = -1)
    (d : Int) :
    ∃ d', c.findIncluded dir (c.fuelBound d) d = some d' ∧ c.includes d' ∧
      (dir = 1 → d ≤ d' ∧ ∀ x : Int, d ≤ x → x < d' → ¬ c.includes x) ∧
      (dir = -1 → d' ≤ d ∧ ∀ x : Int, d' < x → x ≤ d → ¬ c.includes x) := by
  obtain ⟨d', hfind⟩ := findIncluded_success c hm dir hdir d _ (fuelBound_ge c d)
  obtain ⟨hinc, j, hj0, hjd, hjmin⟩ := findIncluded_sound c dir _ d d' hfind
  refine ⟨d', hfind, hinc, ?_, ?_⟩
  · rintro rfl
    constructor
    · omega
    · intro x hx1 hx2
      have : x = d + 1 * (x - d) := by ring
      rw [this]
      exact hjmin (x - d) (by omega) (by omega)
  · rintro rfl
    constructor
    · omega
    · intro x hx1 hx2
      have : x = d + (-1) * (d - x) := by ring
      rw [this]
      exact hjmin (d - x) (by omega) (by omega)

/-- `Calendar::next` returns the smallest included date strictly after `d`. -/
theorem next_spec (c : Calendar) (hm : ∃ w ∈ c.mask, 0 ≤ w ∧ w < 7) (d : Int) :
    ∃ d', c.next d = some d' ∧ c.includes d' ∧ d < d' ∧
      ∀ x : Int, c.includes x → d < x → d' ≤ x := by
  obtain ⟨d', hfind, hinc, hfwd, _⟩ := findIncluded_spec c hm 1 (Or.inl rfl) (d + 1)
  obtain ⟨hle, hmin⟩ := hfwd rfl
  refine ⟨d', ?_, hinc, by omega, ?_⟩
  · have key : c.next d = (match c.findIncluded 1 (c.fuelBound (d + 1)) (d + 1) with
        | none => none
        | some x => some x : Option Int) := rfl
    rw [key, hfind]
  · intro x hx hdx
    by_contra hcon
    exact hmin x (by omega) (by omega) hx

/-- `Calendar::prev` returns the largest included date strictly before `d`. -/
theorem prev_spec (c : Calendar) (hm : ∃ w ∈ c.mask, 0 ≤ w ∧ w < 7) (d : Int) :
    ∃ d', c.prev d = some d' ∧ c.includes d' ∧ d' < d ∧
      ∀ x : Int, c.includes x → x < d → x ≤ d' := by
  obtain ⟨d', hfind, hinc, _, hbwd⟩ := findIncluded_spec c hm (-1) (Or.inr rfl) (d + -1)
  obtain ⟨hle, hmin⟩ := hbwd rfl
  refine ⟨d', ?_, hinc, by omega, ?_⟩
  · have key : c.prev d = (match c.findIncluded (-1) (c.fuelBound (d + -1)) (d + -1) with
        | none => none
        | some x => some x : Option Int) := rfl
    rw [key, hfind]
  · intro x hx hdx
    by_contra hcon
    exact hmin x (by omega) (by omega) hx

theorem offsetGo_spec (c : Calendar) (hm : ∃ w ∈ c.mask, 0 ≤ w ∧ w < 7)
    (dir : Int) (hdir : dir = 1 ∨ dir = -1) :
    ∀ (n : Nat) (d : Int), ∃ d', c.offsetGo dir n d = some d' ∧
      (n ≠ 0 → c.includes d') ∧ (n = 0 → d' = d) := by
  intro n
  induction n with
  | zero => intro d; exact ⟨d, rfl, by omega, fun _ => rfl⟩
  | succ m ih =>
    intro d
    obtain ⟨d₁, hfind, hinc, _, _⟩ := findIncluded_spec c hm dir hdir (d + dir)
    obtain ⟨d', hgo, hinc', hz⟩ := ih d₁
    refine ⟨d', ?_, fun _ => ?_, by omega⟩
    · unfold offsetGo
      rw [hfind]
      exact hgo
    · by_cases hmz : m = 0
      · rw [hz hmz]
        exact hinc
      · exact hinc' hmz

end Calendar

/-- C10.  The claim as frozen fails at `k = 0`: `Calendar::offset(d, 0)`
returns `d` itself, which need not be an included date (counterexample
below).  Amended claim: for every calendar whose weekday mask contains at
least one weekday, `Calendar::offset(d, k)` terminates for every `d` and
`k`, returning an included date when `k ≠ 0` and `d` itself when `k = 0`
(hence `next` and `prev` always return included dates); with an empty mask
and an empty include set the scanning loop never exits (the fuelled loop
returns `none` for every fuel), so `offset` diverges for every `k ≠ 0`. -/
theorem claim_C10_calendar_offset_termination (c : Calendar) (d k : Int) :
    ((∃ w ∈ c.mask, 0 ≤ w ∧ w < 7) →
      ∃ d', c.offset d k = some d' ∧ (k ≠ 0 → c.includes d') ∧ (k = 0 → d' = d)) ∧
    (c.mask = [] → c.includeDates = [] →
      (∀ (dir : Int) (fuel : Nat) (d0 : Int), c.findIncluded dir fuel d0 = none) ∧
      (k ≠ 0 → c.offset d k = none)) := by
  constructor
  · intro hm
    have hdir : (if k < 0 then (-1 : Int) else 1) = 1 ∨
        (if k < 0 then (-1 : Int) else 1) = -1 := by
      split
      · exact Or.inr rfl
      · exact Or.inl rfl
    obtain ⟨d', hgo, hinc, hz⟩ :=
      Calendar.offsetGo_spec c hm _ hdir k.natAbs d
    exact ⟨d', hgo, fun hk => hinc (by omega), fun hk => hz (by omega)⟩
  · intro hmask hincl
    have hnone : ∀ (dir : Int) (fuel : Nat) (d0 : Int),
        c.findIncluded dir fuel d0 = none := by
      intro dir fuel
      induction fuel with
      | zero => intro d0; rfl
      | succ n ih =>
        intro d0
        unfold Calendar.findIncluded
        have hni : ¬ c.includes d0 := by
          unfold Calendar.includes
          rw [hincl, hmask]
          split
          · exact not_false
          · simp
        rw [if_neg hni]
        exact ih (d0 + dir)
    refine ⟨hnone, fun hk => ?_⟩
    unfold Calendar.offset
    have : k.natAbs ≠ 0 := by omega
    cases hn : k.natAbs with
    | zero => omega
    | succ m =>
      unfold Calendar.offsetGo
      rw [hnone]

/-- C10, counterexample to the claim as frozen: the default calendar and
`k = 0` — `offset` terminates but returns Saturday (day 5), which the
calendar does not include. -/
theorem claim_C10_counterexample :
    Calendar.new.offset 5 0 = some 5 ∧ ¬ Calendar.new.includes 5 := by
  constructor
  · rfl
  · decide

theorem claim_C10_witness :
    (∃ w ∈ Calendar.new.mask, 0 ≤ w ∧ w < 7) ∧
    (∃ d', Calendar.new.offset 5 1 = some d' ∧
      ((1 : Int) ≠ 0 → Calendar.new.includes d') ∧ ((1 : Int) = 0 → d' = 5)) :=
  ⟨by decide, (claim_C10_calendar_offset_termination Calendar.new 5 1).1 (by decide)⟩

/-! ## Schedule (`src/schedule.rs`)

A UTC instant is an `Int` on a millisecond axis; a local naive datetime is
likewise an `Int`, and `chrono_tz` conversion is modelled as the fixed offset
`tzOffset` (local = utc + tzOffset).  DST transitions fall outside this model:
on them the source's `from_local_datetime(..).unwrap()` panics for ambiguous
or non-existent local times.  `NaiveDate`/`NaiveTime` of a local instant `l`
are `l / dayLen` and `l % dayLen`; `NaiveTime` arithmetic wraps around
midnight exactly as chrono's does (`% dayLen` below). -/

/-- Milliseconds per day. -/
def dayLen : Int := 86400000

/-- `Schedule`: calendar, times of day (milliseconds since midnight, sorted
and unique after `Schedule::new`), timezone as a fixed offset. -/
structure Schedule where
  calendar : Calendar
  times : List Int
  tzOffset : Int

namespace Schedule

/-- `Schedule::is_end_time`. -/
def is_end_time (s : Schedule) (dt : Int) : Prop :=
  (dt + s.tzOffset) % dayLen ∈ s.times ∧
    s.calendar.includes ((dt + s.tzOffset) / dayLen)

instance (s : Schedule) (dt : Int) : Decidable (s.is_end_time dt) :=
  inferInstanceAs (Decidable (_ ∧ _))

/-- `Schedule::next_time`.  When the current date is off-calendar, the source
advances to the next included date and sets the cursor time to
`times[0] - 1ms` (a wrapping `NaiveTime` subtraction); it then picks the
first schedule time after the cursor, or the first time of the next included
date.  `none` models a panic (`unwrap` on empty `times`) or the calendar
loop never exiting. -/
def next_time (s : Schedule) (dt : Int) : Option Int :=
  match (if s.calendar.includes ((dt + s.tzOffset) / dayLen)
         then some ((dt + s.tzOffset) / dayLen, (dt + s.tzOffset) % dayLen)
         else match s.calendar.next ((dt + s.tzOffset) / dayLen), s.times.head? with
           | some d', some t0 => some (d', (t0 - 1) % dayLen)
           | _, _ => none) with
  | none => none
  | some (date, time) =>
    match s.times.find? (fun x => decide (time < x)) with
    | some t => some (date * dayLen + t - s.tzOffset)
    | none =>
      match s.calendar.next date, s.times.head? with
      | some d'', some t0 => some (d'' * dayLen + t0 - s.tzOffset)
      | _, _ => none

/-- `Schedule::prev_time`, mirror image of `next_time` (cursor
`times.last + 1ms`, scan `times` in reverse). -/
def prev_time (s : Schedule) (dt : Int) : Option Int :=
  match (if s.calendar.includes ((dt + s.tzOffset) / dayLen)
         then some ((dt + s.tzOffset) / dayLen, (dt + s.tzOffset) % dayLen)
         else match s.calendar.prev ((dt + s.tzOffset) / dayLen), s.times.getLast? with
           | some d', some tl => some (d', (tl + 1) % dayLen)
           | _, _ => none) with
  | none => none
  | some (date, time) =>
    match s.times.reverse.find? (fun x => decide (x < time)) with
    | some t => some (date * dayLen + t - s.tzOffset)
    | none =>
      match s.calendar.prev date, s.times.getLast? with
      | some d'', some tl => some (d'' * dayLen + tl - s.tzOffset)
      | _, _ => none

/-- Iterate a partial step function `n` times. -/
def iterOpt (f : Int → Option Int) : Nat → Int → Option Int
  | 0, x => some x
  | n + 1, x => (f x).bind (iterOpt f n)

/-- `Schedule::offset` (the private method on timestamps): iterate
`next_time` (`offset > 0`) or `prev_time` `|offset|` times. -/
def offsetTime (s : Schedule) (dt : Int) (offset : Int) : Option Int :=
  if offset > 0 then iterOpt s.next_time offset.natAbs dt
  else iterOpt s.prev_time offset.natAbs dt

/-- `Schedule::interval`: `rt` is `dt` itself when `dt` is an end time, else
`next_time(dt)`; the interval is `(prev_time(end), end]` with
`end = offset(rt, offset)`. -/
def interval (s : Schedule) (dt : Int) (offset : Int) : Option Interval :=
  match (if s.is_end_time dt then some dt else s.next_time dt) with
  | none => none
  | some rt =>
    match s.offsetTime rt offset with
    | none => none
    | some e =>
      match s.prev_time e with
      | none => none
      | some st => some (Interval.new st e)

end Schedule

/-! ### Helper lemmas for the schedule proofs -/

theorem exists_head {α : Type} {ts : List α} (hne : ts ≠ []) :
    ∃ a, ts.head? = some a := by
  cases ts with
  | nil => exact absurd rfl hne
  | cons a t => exact ⟨a, rfl⟩

theorem exists_last {α : Type} {ts : List α} (hne : ts ≠ []) :
    ∃ a, ts.getLast? = some a := by
  cases hr : ts.reverse with
  | nil =>
    rw [List.reverse_eq_nil_iff] at hr
    exact absurd hr hne
  | cons a t =>
    refine ⟨a, ?_⟩
    rw [← List.head?_reverse, hr, List.head?_cons]

theorem head_min {ts : List Int} (hsort : List.Sorted (· < ·) ts) {t0 : Int}
    (h : ts.head? = some t0) : t0 ∈ ts ∧ ∀ y ∈ ts, t0 ≤ y := by
  cases ts with
  | nil => cases h
  | cons a ts' =>
    rw [List.head?_cons, Option.some.injEq] at h
    subst h
    refine ⟨List.mem_cons_self _ _, ?_⟩
    intro y hy
    rcases List.mem_cons.mp hy with rfl | hy
    · exact le_rfl
    · exact le_of_lt (List.rel_of_sorted_cons hsort y hy)

theorem last_max {ts : List Int} (hsort : List.Sorted (· < ·) ts) {tl : Int}
    (h : ts.getLast? = some tl) : tl ∈ ts ∧ ∀ y ∈ ts, y ≤ tl := by
  have h' : ts.reverse.head? = some tl := by rw [List.head?_reverse]; exact h
  have hp : List.Pairwise (fun a b : Int => a > b) ts.reverse := by
    rw [List.pairwise_reverse]
    exact hsort
  cases hr : ts.reverse with
  | nil => rw [hr] at h'; cases h'
  | cons a rs =>
    rw [hr] at h' hp
    rw [List.head?_cons, Option.some.injEq] at h'
    subst h'
    constructor
    · rw [← List.mem_reverse, hr]
      exact List.mem_cons_self _ _
    · intro y hy
      rw [← List.mem_reverse, hr] at hy
      rcases List.mem_cons.mp hy with rfl | hy
      · exact le_rfl
      · exact le_of_lt (List.rel_of_pairwise_cons hp hy)

theorem find_gt_some {ts : List Int} (hsort : List.Sorted (· < ·) ts) {x t' : Int}
    (h : ts.find? (fun y => decide (x < y)) = some t') :
    t' ∈ ts ∧ x < t' ∧ ∀ y ∈ ts, x < y → t' ≤ y := by
  induction ts with
  | nil => cases h
  | cons a ts' ih =>
    by_cases hxa : x < a
    · rw [List.find?_cons_of_pos _ (by simpa using hxa), Option.some.injEq] at h
      subst h
      refine ⟨List.mem_cons_self _ _, hxa, ?_⟩
      intro y hy _
      rcases List.mem_cons.mp hy with rfl | hy
      · exact le_rfl
      · exact le_of_lt (List.rel_of_sorted_cons hsort y hy)
    · rw [List.find?_cons_of_neg _ (by simpa using hxa)] at h
      obtain ⟨hmem, hlt, hmin⟩ := ih hsort.of_cons h
      refine ⟨List.mem_cons_of_mem _ hmem, hlt, ?_⟩
      intro y hy hxy
      rcases List.mem_cons.mp hy with rfl | hy
      · exact absurd hxy hxa
      · exact hmin y hy hxy

theorem find_gt_none {ts : List Int} {x : Int}
    (h : ts.find? (fun y => decide (x < y)) = none) : ∀ y ∈ ts, y ≤ x := by
  intro y hy
  have := List.find?_eq_none.mp h y hy
  simpa using this

theorem find_lt_desc_some {ts : List Int}
    (hsort : List.Pairwise (fun a b : Int => a > b) ts) {x t' : Int}
    (h : ts.find? (fun y => decide (y < x)) = some t') :
    t' ∈ ts ∧ t' < x ∧ ∀ y ∈ ts, y < x → y ≤ t' := by
  induction ts with
  | nil => cases h
  | cons a ts' ih =>
    by_cases hax : a < x
    · rw [List.find?_cons_of_pos _ (by simpa using hax), Option.some.injEq] at h
      subst h
      refine ⟨List.mem_cons_self _ _, hax, ?_⟩
      intro y hy _
      rcases List.mem_cons.mp hy with rfl | hy
      · exact le_rfl
      · exact le_of_lt (List.rel_of_pairwise_cons hsort hy)
    · rw [List.find?_cons_of_neg _ (by simpa using hax)] at h
      obtain ⟨hmem, hlt, hmin⟩ := ih hsort.of_cons h
      refine ⟨List.mem_cons_of_mem _ hmem, hlt, ?_⟩
      intro y hy hyx
      rcases List.mem_cons.mp hy with rfl | hy
      · exact absurd hyx hax
      · exact hmin y hy hyx

theorem find_rev_some {ts : List Int} (hsort : List.Sorted (· < ·) ts) {x t' : Int}
    (h : ts.reverse.find? (fun y => decide (y < x)) = some t') :
    t' ∈ ts ∧ t' < x ∧ ∀ y ∈ ts, y < x → y ≤ t' := by
  have hp : List.Pairwise (fun a b : Int => a > b) ts.reverse := by
    rw [List.pairwise_reverse]
    exact hsort
  obtain ⟨hmem, hlt, hmin⟩ := find_lt_desc_some hp h
  exact ⟨List.mem_reverse.mp hmem, hlt,
    fun y hy hyx => hmin y (List.mem_reverse.mpr hy) hyx⟩

theorem find_rev_none {ts : List Int} {x : Int}
    (h : ts.reverse.find? (fun y => decide (y < x)) = none) :
    ∀ y ∈ ts, x ≤ y := by
  intro y hy
  have := List.find?_eq_none.mp h y (List.mem_reverse.mpr hy)
  simpa using this

namespace Schedule

/-- An end time built from an included date and a schedule time of day. -/
theorem is_end_time_mk (s : Schedule) (date t : Int) (ht0 : 0 ≤ t)
    (ht1 : t < dayLen) (htm : t ∈ s.times) (hd : s.calendar.includes date) :
    s.is_end_time (date * dayLen + t - s.tzOffset) := by
  unfold is_end_time
  have h : date * dayLen + t - s.tzOffset + s.tzOffset = date * dayLen + t := by
    ring
  rw [h]
  have h1 : (date * dayLen + t) / dayLen = date := by
    unfold dayLen at *
    omega
  have h2 : (date * dayLen + t) % dayLen = t := by
    unfold dayLen at *
    omega
  rw [h1, h2]
  exact ⟨htm, hd⟩

/-- Decomposition of an arbitrary end time into (included date, schedule
time of day). -/
theorem is_end_time_elim (s : Schedule) (hbnd : ∀ t ∈ s.times, 0 ≤ t ∧ t < dayLen)
    {w : Int} (h : s.is_end_time w) :
    ∃ dw tw, w = dw * dayLen + tw - s.tzOffset ∧ tw ∈ s.times ∧
      s.calendar.includes dw ∧ 0 ≤ tw ∧ tw < dayLen := by
  obtain ⟨h1, h2⟩ := h
  obtain ⟨hb0, hb1⟩ := hbnd _ h1
  refine ⟨(w + s.tzOffset) / dayLen, (w + s.tzOffset) % dayLen, ?_, h1, h2, hb0, hb1⟩
  unfold dayLen
  omega

theorem next_time_eq_included (s : Schedule) (u : Int)
    (hinc : s.calendar.includes ((u + s.tzOffset) / dayLen)) :
    s.next_time u =
      match s.times.find? (fun x => decide ((u + s.tzOffset) % dayLen < x)) with
      | some t => some ((u + s.tzOffset) / dayLen * dayLen + t - s.tzOffset)
      | none =>
        match s.calendar.next ((u + s.tzOffset) / dayLen), s.times.head? with
        | some d'', some t0 => some (d'' * dayLen + t0 - s.tzOffset)
        | _, _ => none := by
  unfold next_time
  rw [if_pos hinc]

theorem next_time_eq_excluded (s : Schedule) (u : Int)
    (hninc : ¬ s.calendar.includes ((u + s.tzOffset) / dayLen))
    {d' t0 : Int} (hnext : s.calendar.next ((u + s.tzOffset) / dayLen) = some d')
    (hhead : s.times.head? = some t0) :
    s.next_time u =
      match s.times.find? (fun x => decide ((t0 - 1) % dayLen < x)) with
      | some t => some (d' * dayLen + t - s.tzOffset)
      | none =>
        match s.calendar.next d', s.times.head? with
        | some d'', some t0' => some (d'' * dayLen + t0' - s.tzOffset)
        | _, _ => none := by
  unfold next_time
  rw [if_neg hninc, hnext, hhead]

theorem prev_time_eq_included (s : Schedule) (u : Int)
    (hinc : s.calendar.includes ((u + s.tzOffset) / dayLen)) :
    s.prev_time u =
      match s.times.reverse.find? (fun x => decide (x < (u + s.tzOffset) % dayLen)) with
      | some t => some ((u + s.tzOffset) / dayLen * dayLen + t - s.tzOffset)
      | none =>
        match s.calendar.prev ((u + s.tzOffset) / dayLen), s.times.getLast? with
        | some d'', some tl => some (d'' * dayLen + tl - s.tzOffset)
        | _, _ => none := by
  unfold prev_time
  rw [if_pos hinc]

end Schedule

namespace Schedule

/-- `Schedule::next_time` returns the least schedule end time strictly after
the input, provided the calendar mask holds a genuine weekday, the time list
is non-empty, sorted, within the day, and does not contain midnight (see the
C3 counterexample for what goes wrong at midnight). -/
theorem next_time_spec (s : Schedule)
    (hm : ∃ w ∈ s.calendar.mask, 0 ≤ w ∧ w < 7)
    (hne : s.times ≠ [])
    (hsort : List.Sorted (· < ·) s.times)
    (hbnd : ∀ t ∈ s.times, 0 ≤ t ∧ t < dayLen)
    (h0 : (0 : Int) ∉ s.times)
    (u : Int) :
    ∃ v, s.next_time u = some v ∧ s.is_end_time v ∧ u < v ∧
      ∀ w, s.is_end_time w → u < w → v ≤ w := by
  obtain ⟨t0, hhead⟩ := exists_head hne
  obtain ⟨ht0mem, ht0min⟩ := head_min hsort hhead
  obtain ⟨ht00, ht01⟩ := hbnd t0 ht0mem
  have ht0pos : 0 < t0 := by
    have : t0 ≠ 0 := fun hh => h0 (hh ▸ ht0mem)
    omega
  by_cases hinc : s.calendar.includes ((u + s.tzOffset) / dayLen)
  · have heq := next_time_eq_included s u hinc
    cases hfind : s.times.find? (fun x => decide ((u + s.tzOffset) % dayLen < x)) with
    | some t' =>
      rw [hfind] at heq
      have heq2 : s.next_time u =
          some ((u + s.tzOffset) / dayLen * dayLen + t' - s.tzOffset) := by
        rw [heq]
      obtain ⟨htm, htlt, htmin⟩ := find_gt_some hsort hfind
      obtain ⟨ht'0, ht'1⟩ := hbnd t' htm
      refine ⟨_, heq2, is_end_time_mk s _ t' ht'0 ht'1 htm hinc, ?_, ?_⟩
      · unfold dayLen at *
        omega
      · intro w hw hww
        obtain ⟨dw, tw, hwdec, htwm, hdwinc, htw0, htw1⟩ := is_end_time_elim s hbnd hw
        rcases lt_trichotomy dw ((u + s.tzOffset) / dayLen) with hlt | heqd | hgt
        · exfalso
          unfold dayLen at *
          omega
        · have hcur : (u + s.tzOffset) % dayLen < tw := by
            unfold dayLen at *
            omega
          have := htmin tw htwm hcur
          unfold dayLen at *
          omega
        · unfold dayLen at *
          omega
    | none =>
      have hnone := find_gt_none hfind
      obtain ⟨d'', hnext, hd''inc, hd''lt, hd''min⟩ :=
        Calendar.next_spec s.calendar hm ((u + s.tzOffset) / dayLen)
      rw [hfind, hnext, hhead] at heq
      have heq2 : s.next_time u = some (d'' * dayLen + t0 - s.tzOffset) := by
        rw [heq]
      refine ⟨_, heq2, is_end_time_mk s d'' t0 ht00 ht01 ht0mem hd''inc, ?_, ?_⟩
      · unfold dayLen at *
        omega
      · intro w hw hww
        obtain ⟨dw, tw, hwdec, htwm, hdwinc, htw0, htw1⟩ := is_end_time_elim s hbnd hw
        rcases lt_trichotomy dw ((u + s.tzOffset) / dayLen) with hlt | heqd | hgt
        · exfalso
          unfold dayLen at *
          omega
        · have h1 := hnone tw htwm
          exfalso
          unfold dayLen at *
          omega
        · have h2 := hd''min dw hdwinc hgt
          rcases eq_or_lt_of_le h2 with heq3 | hlt3
          · have h3 := ht0min tw htwm
            unfold dayLen at *
            omega
          · unfold dayLen at *
            omega
  · obtain ⟨d', hnext, hd'inc, hd'lt, hd'min⟩ :=
      Calendar.next_spec s.calendar hm ((u + s.tzOffset) / dayLen)
    have heq := next_time_eq_excluded s u hinc hnext hhead
    have hcur : (t0 - 1) % dayLen = t0 - 1 := by
      unfold dayLen at *
      omega
    have hfind : s.times.find? (fun x => decide ((t0 - 1) % dayLen < x)) = some t0 := by
      cases hts : s.times with
      | nil => exact absurd hts hne
      | cons a ts' =>
        have ha : a = t0 := by
          rw [hts, List.head?_cons, Option.some.injEq] at hhead
          exact hhead
        subst ha
        rw [List.find?_cons_of_pos]
        rw [hcur]
        simp only [decide_eq_true_eq]
        omega
    rw [hfind] at heq
    have heq2 : s.next_time u = some (d' * dayLen + t0 - s.tzOffset) := by
      rw [heq]
    refine ⟨_, heq2, is_end_time_mk s d' t0 ht00 ht01 ht0mem hd'inc, ?_, ?_⟩
    · unfold dayLen at *
      omega
    · intro w hw hww
      obtain ⟨dw, tw, hwdec, htwm, hdwinc, htw0, htw1⟩ := is_end_time_elim s hbnd hw
      rcases lt_trichotomy dw ((u + s.tzOffset) / dayLen) with hlt | heqd | hgt
      · exfalso
        unfold dayLen at *
        omega
      · exfalso
        rw [heqd] at hdwinc
        exact hinc hdwinc
      · have h2 := hd'min dw hdwinc hgt
        rcases eq_or_lt_of_le h2 with heq3 | hlt3
        · have h3 := ht0min tw htwm
          unfold dayLen at *
          omega
        · unfold dayLen at *
          omega

/-- On an input whose date the calendar includes, `Schedule::prev_time`
returns some end time strictly before the input. -/
theorem prev_time_sound (s : Schedule)
    (hm : ∃ w ∈ s.calendar.mask, 0 ≤ w ∧ w < 7)
    (hne : s.times ≠ [])
    (hsort : List.Sorted (· < ·) s.times)
    (hbnd : ∀ t ∈ s.times, 0 ≤ t ∧ t < dayLen)
    (u : Int) (hinc : s.calendar.includes ((u + s.tzOffset) / dayLen)) :
    ∃ p, s.prev_time u = some p ∧ s.is_end_time p ∧ p < u := by
  have heq := prev_time_eq_included s u hinc
  cases hfind : s.times.reverse.find?
      (fun x => decide (x < (u + s.tzOffset) % dayLen)) with
  | some t' =>
    rw [hfind] at heq
    have heq2 : s.prev_time u =
        some ((u + s.tzOffset) / dayLen * dayLen + t' - s.tzOffset) := by
      rw [heq]
    obtain ⟨htm, htlt, _⟩ := find_rev_some hsort hfind
    obtain ⟨ht'0, ht'1⟩ := hbnd t' htm
    refine ⟨_, heq2, is_end_time_mk s _ t' ht'0 ht'1 htm hinc, ?_⟩
    unfold dayLen at *
    omega
  | none =>
    obtain ⟨tl, hlast⟩ := exists_last hne
    obtain ⟨htlmem, _⟩ := last_max hsort hlast
    obtain ⟨htl0, htl1⟩ := hbnd tl htlmem
    obtain ⟨d'', hprev, hd''inc, hd''lt, _⟩ :=
      Calendar.prev_spec s.calendar hm ((u + s.tzOffset) / dayLen)
    rw [hfind, hprev, hlast] at heq
    have heq2 : s.prev_time u = some (d'' * dayLen + tl - s.tzOffset) := by
      rw [heq]
    refine ⟨_, heq2, is_end_time_mk s d'' tl htl0 htl1 htlmem hd''inc, ?_⟩
    unfold dayLen at *
    omega

theorem iterOpt_one (f : Int → Option Int) (x : Int) : iterOpt f 1 x = f x := by
  show (f x).bind (iterOpt f 0) = f x
  cases f x with
  | none => rfl
  | some y => rfl

theorem offsetTime_zero (s : Schedule) (t : Int) : s.offsetTime t 0 = some t := by
  unfold offsetTime
  rw [if_neg (by omega : ¬ (0 : Int) > 0)]
  rfl

theorem offsetTime_one (s : Schedule) (t : Int) :
    s.offsetTime t 1 = s.next_time t := by
  unfold offsetTime
  rw [if_pos (by omega : (1 : Int) > 0)]
  exact iterOpt_one _ t

theorem offsetTime_neg_one (s : Schedule) (t : Int) :
    s.offsetTime t (-1) = s.prev_time t := by
  unfold offsetTime
  rw [if_neg (by omega : ¬ (-1 : Int) > 0)]
  exact iterOpt_one _ t

end Schedule

/-- C3.  The claim as frozen fails when the schedule's earliest time of day
is midnight: on an off-calendar date `next_time` sets its cursor to
`times[0] - 1ms`, a wrapping `NaiveTime` subtraction, so for `times[0] =
00:00:00` the cursor wraps to `23:59:59.999`, the time scan comes up empty,
and a whole scheduled day is skipped — the returned interval then lies
entirely after `t` (counterexample below).  Amended claim: for every
schedule whose calendar mask holds at least one weekday and whose time list
is non-empty (sorted, unique and within the day, as `Schedule::new`
guarantees) and does not contain midnight, `schedule.interval(t, 0)`
contains `t` in the half-open sense `start < t ≤ end`, for every timestamp
`t`. -/
theorem claim_C3_interval_contains (s : Schedule)
    (hm : ∃ w ∈ s.calendar.mask, 0 ≤ w ∧ w < 7)
    (hne : s.times ≠ [])
    (hsort : List.Sorted (· < ·) s.times)
    (hbnd : ∀ t ∈ s.times, 0 ≤ t ∧ t < dayLen)
    (h0 : (0 : Int) ∉ s.times)
    (t : Int) :
    ∃ iv, s.interval t 0 = some iv ∧ iv.contains t := by
  by_cases hend : s.is_end_time t
  · have hrt : (if s.is_end_time t then some t else s.next_time t) = some t :=
      if_pos hend
    obtain ⟨p, hp, hpend, hplt⟩ :=
      Schedule.prev_time_sound s hm hne hsort hbnd t hend.2
    have h1 : s.interval t 0 =
        (match s.offsetTime t 0 with
         | none => none
         | some e =>
           match s.prev_time e with
           | none => none
           | some st => some (Interval.new st e)) := by
      unfold Schedule.interval
      rw [hrt]
    rw [Schedule.offsetTime_zero] at h1
    have h2 : s.interval t 0 =
        (match s.prev_time t with
         | none => none
         | some st => some (Interval.new st t)) := by
      rw [h1]
    rw [hp] at h2
    have h3 : s.interval t 0 = some (Interval.new p t) := by
      rw [h2]
    refine ⟨_, h3, ?_⟩
    rw [Interval.new_of_le (le_of_lt hplt)]
    exact ⟨hplt, le_rfl⟩
  · obtain ⟨v, hv, hvend, hvlt, hvmin⟩ :=
      Schedule.next_time_spec s hm hne hsort hbnd h0 t
    have hrt : (if s.is_end_time t then some t else s.next_time t) = some v := by
      rw [if_neg hend]
      exact hv
    obtain ⟨p, hp, hpend, hplt⟩ :=
      Schedule.prev_time_sound s hm hne hsort hbnd v hvend.2
    have hpt : p < t := by
      rcases lt_trichotomy p t with h | h | h
      · exact h
      · exact absurd (h ▸ hpend) hend
      · exact absurd (hvmin p hpend h) (by omega)
    have h1 : s.interval t 0 =
        (match s.offsetTime v 0 with
         | none => none
         | some e =>
           match s.prev_time e with
           | none => none
           | some st => some (Interval.new st e)) := by
      unfold Schedule.interval
      rw [hrt]
    rw [Schedule.offsetTime_zero] at h1
    have h2 : s.interval t 0 =
        (match s.prev_time v with
         | none => none
         | some st => some (Interval.new st v)) := by
      rw [h1]
    rw [hp] at h2
    have h3 : s.interval t 0 = some (Interval.new p v) := by
      rw [h2]
    refine ⟨_, h3, ?_⟩
    rw [Interval.new_of_le (by omega : p ≤ v)]
    exact ⟨hpt, le_of_lt hvlt⟩

/-- C3, counterexample to the claim as frozen: a Monday–Friday calendar with
the single time 00:00:00 (midnight).  Day 0 is a Monday; `t` is Saturday
(day 5) 05:00.  `interval(t, 0)` returns `(Mon 00:00, Tue 00:00]` — the
scheduled Monday-midnight endpoint is skipped by the wrapping
`times[0] - 1ms` cursor — which does not contain `t`. -/
theorem claim_C3_counterexample :
    (⟨Calendar.new, [0], 0⟩ : Schedule).interval 450000000 0 =
        some ⟨604800000, 691200000⟩ ∧
      ¬ (Interval.mk 604800000 691200000).contains 450000000 := by
  constructor
  · rfl
  · decide

theorem claim_C3_witness :
    ((∃ w ∈ (⟨Calendar.new, [37800000, 41400000], 0⟩ : Schedule).calendar.mask,
        0 ≤ w ∧ w < 7) ∧
      (⟨Calendar.new, [37800000, 41400000], 0⟩ : Schedule).times ≠ [] ∧
      List.Sorted (· < ·) (⟨Calendar.new, [37800000, 41400000], 0⟩ : Schedule).times ∧
      (∀ t ∈ (⟨Calendar.new, [37800000, 41400000], 0⟩ : Schedule).times,
        0 ≤ t ∧ t < dayLen) ∧
      (0 : Int) ∉ (⟨Calendar.new, [37800000, 41400000], 0⟩ : Schedule).times) ∧
    ∃ iv, (⟨Calendar.new, [37800000, 41400000], 0⟩ : Schedule).interval 39600000 0 =
        some iv ∧ iv.contains 39600000 :=
  ⟨⟨by decide, by decide, by decide, by decide, by decide⟩,
    claim_C3_interval_contains ⟨Calendar.new, [37800000, 41400000], 0⟩
      (by decide) (by decide) (by decide) (by decide) (by decide) 39600000⟩

namespace Schedule

/-- Whenever `Schedule::next_time` returns a value, that value is strictly
later than the input: every branch lands on a schedule time of the current
day strictly after the cursor, or on a time of a strictly later calendar
day. -/
theorem next_time_gt (s : Schedule)
    (hm : ∃ w ∈ s.calendar.mask, 0 ≤ w ∧ w < 7)
    (hbnd : ∀ x ∈ s.times, 0 ≤ x ∧ x < dayLen)
    (t v : Int) (h : s.next_time t = some v) : t < v := by
  by_cases hinc : s.calendar.includes ((t + s.tzOffset) / dayLen)
  · have heq := next_time_eq_included s t hinc
    cases hfind : s.times.find? (fun x => decide ((t + s.tzOffset) % dayLen < x)) with
    | some x =>
      rw [hfind] at heq
      have heq2 : s.next_time t =
          some ((t + s.tzOffset) / dayLen * dayLen + x - s.tzOffset) := by
        rw [heq]
      rw [heq2] at h
      injection h with h1
      have hfs := List.find?_some hfind
      have hpx : (t + s.tzOffset) % dayLen < x := of_decide_eq_true hfs
      unfold dayLen at *
      omega
    | none =>
      rw [hfind] at heq
      obtain ⟨d2, hnx, _, hlt, _⟩ := Calendar.next_spec s.calendar hm ((t + s.tzOffset) / dayLen)
      rw [hnx] at heq
      cases hhead : s.times.head? with
      | none =>
        rw [hhead] at heq
        have heq2 : s.next_time t = none := by rw [heq]
        rw [heq2] at h
        cases h
      | some t0 =>
        rw [hhead] at heq
        have heq2 : s.next_time t = some (d2 * dayLen + t0 - s.tzOffset) := by
          rw [heq]
        rw [heq2] at h
        injection h with h1
        obtain ⟨ht00, ht01⟩ := hbnd t0 (head?_mem hhead)
        unfold dayLen at *
        omega
  · obtain ⟨d1, hnx1, _, hlt1, _⟩ := Calendar.next_spec s.calendar hm ((t + s.tzOffset) / dayLen)
    cases hhead : s.times.head? with
    | none =>
      have heq2 : s.next_time t = none := by
        unfold next_time
        rw [if_neg hinc, hnx1, hhead]
      rw [heq2] at h
      cases h
    | some t0 =>
      have heq := next_time_eq_excluded s t hinc hnx1 hhead
      cases hfind : s.times.find? (fun x => decide ((t0 - 1) % dayLen < x)) with
      | some x =>
        rw [hfind] at heq
        have heq2 : s.next_time t = some (d1 * dayLen + x - s.tzOffset) := by
          rw [heq]
        rw [heq2] at h
        injection h with h1
        obtain ⟨hx0, hx1⟩ := hbnd x (List.mem_of_find?_eq_some hfind)
        unfold dayLen at *
        omega
      | none =>
        rw [hfind] at heq
        obtain ⟨d2, hnx2, _, hlt2, _⟩ := Calendar.next_spec s.calendar hm d1
        rw [hnx2, hhead] at heq
        have heq2 : s.next_time t = some (d2 * dayLen + t0 - s.tzOffset) := by
          rw [heq]
        rw [heq2] at h
        injection h with h1
        obtain ⟨ht00, ht01⟩ := hbnd t0 (head?_mem hhead)
        unfold dayLen at *
        omega

end Schedule

/-- C4.  The claim as frozen fails in its third equation: `offset(t, 0)`
runs zero iterations and returns `t` itself, whereas `interval(t, 0).end` is
the first schedule endpoint at or after `t`; the two agree exactly when `t`
is itself an end time (counterexample below).  Amended claim: `offset(t, 1)
= nextTime(t)` and `offset(t, -1) = prevTime(t)` for every `t`
(definitional), `offset(t, 0) = t`, and `interval(t, 0).end = t =
offset(t, 0)` if and only if `t` is a schedule end time: when it is not,
`next_time` strictly exceeds `t`, so the produced interval's end does
too. -/
theorem claim_C4_offset_next_prev (s : Schedule)
    (hm : ∃ w ∈ s.calendar.mask, 0 ≤ w ∧ w < 7)
    (hne : s.times ≠ [])
    (hsort : List.Sorted (· < ·) s.times)
    (hbnd : ∀ t ∈ s.times, 0 ≤ t ∧ t < dayLen)
    (t : Int) :
    s.offsetTime t 1 = s.next_time t ∧
    s.offsetTime t (-1) = s.prev_time t ∧
    s.offsetTime t 0 = some t ∧
    ((s.interval t 0).map Interval.stop = some t ↔ s.is_end_time t) := by
  refine ⟨Schedule.offsetTime_one s t, Schedule.offsetTime_neg_one s t,
    Schedule.offsetTime_zero s t, ?_, ?_⟩
  · intro hmap
    by_contra hnot
    have hrt2 : (if s.is_end_time t then some t else s.next_time t) =
        s.next_time t := if_neg hnot
    have h1 : s.interval t 0 =
        (match s.next_time t with
         | none => none
         | some rt =>
           match s.offsetTime rt 0 with
           | none => none
           | some e =>
             match s.prev_time e with
             | none => none
             | some st => some (Interval.new st e)) := by
      unfold Schedule.interval
      rw [hrt2]
    cases hnt : s.next_time t with
    | none =>
      rw [hnt] at h1
      have h2 : s.interval t 0 = none := by rw [h1]
      rw [h2] at hmap
      cases hmap
    | some v =>
      have hv : t < v := Schedule.next_time_gt s hm hbnd t v hnt
      rw [hnt] at h1
      have h2 : s.interval t 0 =
          (match s.offsetTime v 0 with
           | none => none
           | some e =>
             match s.prev_time e with
             | none => none
             | some st => some (Interval.new st e)) := by
        rw [h1]
      rw [Schedule.offsetTime_zero] at h2
      have h3 : s.interval t 0 =
          (match s.prev_time v with
           | none => none
           | some st => some (Interval.new st v)) := by
        rw [h2]
      cases hpv : s.prev_time v with
      | none =>
        rw [hpv] at h3
        have h4 : s.interval t 0 = none := by rw [h3]
        rw [h4] at hmap
        cases hmap
      | some p =>
        rw [hpv] at h3
        have h4 : s.interval t 0 = some (Interval.new p v) := by rw [h3]
        rw [h4, Option.map_some'] at hmap
        injection hmap with h5
        have h6 : v ≤ (Interval.new p v).stop := by
          unfold Interval.new
          by_cases hc : p > v
          · rw [if_pos hc]
            show v ≤ p
            omega
          · rw [if_neg hc]
        rw [h5] at h6
        omega
  intro hend
  have hrt : (if s.is_end_time t then some t else s.next_time t) = some t :=
    if_pos hend
  obtain ⟨p, hp, _, hplt⟩ :=
    Schedule.prev_time_sound s hm hne hsort hbnd t hend.2
  have h1 : s.interval t 0 =
      (match s.offsetTime t 0 with
       | none => none
       | some e =>
         match s.prev_time e with
         | none => none
         | some st => some (Interval.new st e)) := by
    unfold Schedule.interval
    rw [hrt]
  rw [Schedule.offsetTime_zero] at h1
  have h2 : s.interval t 0 =
      (match s.prev_time t with
       | none => none
       | some st => some (Interval.new st t)) := by
    rw [h1]
  rw [hp] at h2
  have h3 : s.interval t 0 = some (Interval.new p t) := by
    rw [h2]
  rw [h3, Interval.new_of_le (le_of_lt hplt)]
  rfl

/-- C4, counterexample to the claim as frozen: the weekday calendar with
times 10:30 and 11:30 (milliseconds, UTC), `t` = Monday 11:00, which is not
a schedule endpoint: `offset(t, 0)` returns `t` itself while
`interval(t, 0).end` is Monday 11:30. -/
theorem claim_C4_counterexample :
    ¬ ((⟨Calendar.new, [37800000, 41400000], 0⟩ : Schedule).offsetTime 39600000 0 =
        ((⟨Calendar.new, [37800000, 41400000], 0⟩ : Schedule).interval 39600000 0).map
          Interval.stop) := by
  intro h
  have h1 : (⟨Calendar.new, [37800000, 41400000], 0⟩ : Schedule).offsetTime
      39600000 0 = some 39600000 := rfl
  have h2 : ((⟨Calendar.new, [37800000, 41400000], 0⟩ : Schedule).interval
      39600000 0).map Interval.stop = some 41400000 := rfl
  rw [h1, h2] at h
  cases h

theorem claim_C4_witness :
    ((∃ w ∈ (⟨Calendar.new, [37800000, 41400000], 0⟩ : Schedule).calendar.mask,
        0 ≤ w ∧ w < 7) ∧
      (⟨Calendar.new, [37800000, 41400000], 0⟩ : Schedule).times ≠ [] ∧
      List.Sorted (· < ·) (⟨Calendar.new, [37800000, 41400000], 0⟩ : Schedule).times ∧
      (∀ t ∈ (⟨Calendar.new, [37800000, 41400000], 0⟩ : Schedule).times,
        0 ≤ t ∧ t < dayLen)) ∧
    ((⟨Calendar.new, [37800000, 41400000], 0⟩ : Schedule).offsetTime 41400000 1 =
        (⟨Calendar.new, [37800000, 41400000], 0⟩ : Schedule).next_time 41400000 ∧
      (⟨Calendar.new, [37800000, 41400000], 0⟩ : Schedule).offsetTime 41400000 (-1) =
        (⟨Calendar.new, [37800000, 41400000], 0⟩ : Schedule).prev_time 41400000 ∧
      (⟨Calendar.new, [37800000, 41400000], 0⟩ : Schedule).offsetTime 41400000 0 =
        some 41400000 ∧
      (((⟨Calendar.new, [37800000, 41400000], 0⟩ : Schedule).interval 41400000 0).map
          Interval.stop = some 41400000 ↔
        (⟨Calendar.new, [37800000, 41400000], 0⟩ : Schedule).is_end_time 41400000)) :=
  ⟨⟨by decide, by decide, by decide, by decide⟩,
    claim_C4_offset_next_prev ⟨Calendar.new, [37800000, 41400000], 0⟩
      (by decide) (by decide) (by decide) (by decide) 41400000⟩

namespace Schedule

/-- The inner `for time in &self.times` loop of `Schedule::generate`: push
`(prev_time, dt]` when `dt` falls in the requested interval, `break` when
`dt` has passed its end (leaving `prev_time` untouched), otherwise just
advance `prev_time`.  Returns the pushed intervals and the final
`prev_time`. -/
def generateDay (s : Schedule) (iv : Interval) (date : Int) :
    List Int → Int → List Interval × Int
  | [], prev => ([], prev)
  | t :: ts, prev =>
    let dt := date * dayLen + t - s.tzOffset
    if iv.start < dt ∧ dt ≤ iv.stop then
      let r := s.generateDay iv date ts dt
      (Interval.new prev dt :: r.1, r.2)
    else if iv.stop < dt then ([], prev)
    else s.generateDay iv date ts dt

/-- The outer `while date < end_date` loop of `Schedule::generate`.  The fuel
is one more than the number of days in `[date, end_date]`; since
`calendar.next` advances by at least one day per iteration the fuel can only
run out once `date < end_date` is already false, so `none` is produced
exactly when `calendar.next` itself diverges. -/
def generateLoop (s : Schedule) (iv : Interval) (end_date : Int) :
    Nat → Int → Int → Option (List Interval)
  | 0, _, _ => none
  | fuel + 1, date, prev =>
    if date < end_date then
      match s.calendar.next date with
      | none => none
      | some d' =>
        match s.generateLoop iv end_date fuel d' (s.generateDay iv date s.times prev).2 with
        | none => none
        | some rest => some ((s.generateDay iv date s.times prev).1 ++ rest)
    else some []

/-- `Schedule::generate`.  Note the source takes `date_naive()` of UTC
instants here (not timezone-local dates). -/
def generate (s : Schedule) (interval : Interval) : Option (List Interval) :=
  if s.times = [] then some [] else
  match s.interval interval.start 0, s.interval interval.stop 0 with
  | some iv0, some iv1 =>
    match s.calendar.prev (iv0.start / dayLen), s.times.head? with
    | some date0, some t0 =>
      match s.calendar.next (iv1.stop / dayLen + 1) with
      | none => none
      | some end_date =>
        s.generateLoop interval end_date ((end_date - date0).toNat + 1) date0
          (date0 * dayLen + t0 - s.tzOffset)
    | _, _ => none
  | _, _ => none

end Schedule

/-! ## ResourceInterval and Task (`src/resource_interval.rs`, `src/task.rs`) -/

/-- `ResourceInterval`: resource name → IntervalSet.  The `HashMap` is
modelled as an association list with distinct keys; `get` is `lookup`. -/
abbrev ResourceInterval := List (String × List Interval)

/-- `Task` — the fields read by `generate_intervals` and `can_run`; the
command bodies, name and timezone play no role in those methods. -/
structure Task where
  provides : List String
  schedule : Schedule
  valid_over : List Interval

/-- The closure mapped over `task.provides` in `Task::generate_intervals`:
`required[res] ∩ valid_over`, or the empty set when `res` is absent. -/
def resourceNeed (required : ResourceInterval) (t : Task) (res : String) :
    List Interval :=
  match required.lookup res with
  | some is => IntervalSet.intersection is t.valid_over
  | none => IntervalSet.new

/-- The body of the fold in `Task::generate_intervals`: clip one member to
`valid_over`'s endpoints (`start()/end().unwrap()` — `none` models the
panic on an empty `valid_over`) and run `schedule.generate` on it. -/
def Task.clipGen (t : Task) (intv : Interval) : Option (List Interval) :=
  match IntervalSet.startO t.valid_over, IntervalSet.endO t.valid_over with
  | some vs, some ve =>
    t.schedule.generate (Interval.new (max intv.start vs) (min intv.stop ve))
  | _, _ => none

/-- `Task::generate_intervals`. -/
def Task.generate_intervals (t : Task) (required : ResourceInterval) :
    Option (Except String (List Interval)) :=
  match t.provides.map (resourceNeed required t) with
  | [] => some (.ok [])
  | ris :: rest =>
    if rest.all (fun is => decide (is = ris)) then
      (ris.foldl
        (fun acc intv =>
          match acc with
          | none => none
          | some a =>
            match t.clipGen intv with
            | none => none
            | some g => some (a ++ g))
        (some [])).map Except.ok
    else
      some (.error
        ("Task produces multiple resources, but intervals are not consistent across needs"))

theorem foldl_clip_none (f : Interval → Option (List Interval)) :
    ∀ (l : List Interval),
      l.foldl
        (fun acc intv =>
          match acc with
          | none => none
          | some a =>
            match f intv with
            | none => none
            | some g => some (a ++ g))
        none = none := by
  intro l
  induction l with
  | nil => rfl
  | cons i l' ih => exact ih

theorem foldl_clip_eq_mapM (f : Interval → Option (List Interval)) :
    ∀ (l : List Interval) (a0 : List Interval),
      l.foldl
        (fun acc intv =>
          match acc with
          | none => none
          | some a =>
            match f intv with
            | none => none
            | some g => some (a ++ g))
        (some a0) =
      (l.mapM f).map (fun ls => a0 ++ ls.flatten) := by
  intro l
  induction l with
  | nil =>
    intro a0
    rw [List.foldl_nil, List.mapM_nil]
    simp
  | cons i l' ih =>
    intro a0
    rw [List.foldl_cons, List.mapM_cons]
    cases hfi : f i with
    | none =>
      simp only [hfi, Option.bind_eq_bind, Option.none_bind, Option.map_none']
      exact foldl_clip_none f l'
    | some g =>
      simp only [hfi, Option.bind_eq_bind, Option.some_bind]
      rw [ih (a0 ++ g)]
      cases hl : l'.mapM f with
      | none => simp
      | some ls => simp [List.append_assoc]

/-- C5.  `Task::generate_intervals` errors exactly when two provided
resources have diverging requirement windows inside `valid_over` (a resource
missing from `required` contributing the empty set); otherwise it returns
`Ok` with the flattened `schedule.generate` output of each member of the
common window, clipped to `valid_over`'s endpoints. -/
theorem claim_C5_generate_intervals_error_iff (t : Task) (required : ResourceInterval) :
    ((∃ msg, t.generate_intervals required = some (Except.error msg)) ↔
      ∃ r1 ∈ t.provides, ∃ r2 ∈ t.provides,
        resourceNeed required t r1 ≠ resourceNeed required t r2) ∧
    ((¬ ∃ r1 ∈ t.provides, ∃ r2 ∈ t.provides,
        resourceNeed required t r1 ≠ resourceNeed required t r2) →
      t.generate_intervals required =
        match t.provides.head? with
        | none => some (Except.ok [])
        | some r0 =>
          ((resourceNeed required t r0).mapM t.clipGen).map
            (fun ls => Except.ok ls.flatten)) := by
  cases hp : t.provides with
  | nil =>
    have hgen : t.generate_intervals required = some (Except.ok []) := by
      unfold Task.generate_intervals
      rw [hp]
      rfl
    constructor
    · rw [hgen]
      constructor
      · rintro ⟨msg, hmsg⟩
        cases hmsg
      · rintro ⟨r1, hr1, _⟩
        cases hr1
    · intro _
      rw [hgen]
      rfl
  | cons r0 ps =>
    have hmap : t.provides.map (resourceNeed required t) =
        resourceNeed required t r0 :: ps.map (resourceNeed required t) := by
      rw [hp, List.map_cons]
    by_cases hall : ∀ r ∈ ps, resourceNeed required t r = resourceNeed required t r0
    · have hcond : (ps.map (resourceNeed required t)).all
          (fun is => decide (is = resourceNeed required t r0)) = true := by
        rw [List.all_eq_true]
        intro x hx
        rw [List.mem_map] at hx
        obtain ⟨r, hr, rfl⟩ := hx
        simpa using hall r hr
      have hgen : t.generate_intervals required =
          ((resourceNeed required t r0).foldl
            (fun acc intv =>
              match acc with
              | none => none
              | some a =>
                match t.clipGen intv with
                | none => none
                | some g => some (a ++ g))
            (some [])).map Except.ok := by
        have h1 : t.generate_intervals required =
            (if (ps.map (resourceNeed required t)).all
                (fun is => decide (is = resourceNeed required t r0)) then
              ((resourceNeed required t r0).foldl
                (fun acc intv =>
                  match acc with
                  | none => none
                  | some a =>
                    match t.clipGen intv with
                    | none => none
                    | some g => some (a ++ g))
                (some [])).map Except.ok
            else
              some (.error
                ("Task produces multiple resources, but intervals are not consistent across needs"))) := by
          unfold Task.generate_intervals
          rw [hmap]
        rw [h1, if_pos hcond]
      have hnp : ¬ ∃ r1 ∈ r0 :: ps, ∃ r2 ∈ r0 :: ps,
          resourceNeed required t r1 ≠ resourceNeed required t r2 := by
        rintro ⟨r1, hr1, r2, hr2, hne⟩
        rw [List.mem_cons] at hr1 hr2
        have e1 : resourceNeed required t r1 = resourceNeed required t r0 := by
          rcases hr1 with rfl | hr1
          · rfl
          · exact hall r1 hr1
        have e2 : resourceNeed required t r2 = resourceNeed required t r0 := by
          rcases hr2 with rfl | hr2
          · rfl
          · exact hall r2 hr2
        exact hne (e1.trans e2.symm)
      constructor
      · rw [hgen]
        constructor
        · rintro ⟨msg, hmsg⟩
          cases hfold : ((resourceNeed required t r0).foldl
              (fun acc intv =>
                match acc with
                | none => none
                | some a =>
                  match t.clipGen intv with
                  | none => none
                  | some g => some (a ++ g))
              (some [])) with
          | none =>
            rw [hfold] at hmsg
            simp at hmsg
          | some ls =>
            rw [hfold] at hmsg
            simp at hmsg
        · intro hP
          exact absurd hP hnp
      · intro _
        rw [hgen, foldl_clip_eq_mapM]
        show Option.map Except.ok
            (((resourceNeed required t r0).mapM t.clipGen).map
              (fun ls => [] ++ ls.flatten)) =
          ((resourceNeed required t r0).mapM t.clipGen).map
            (fun ls => Except.ok ls.flatten)
        cases hl : (resourceNeed required t r0).mapM t.clipGen with
        | none => rfl
        | some ls => simp
    · push_neg at hall
      obtain ⟨r, hr, hner⟩ := hall
      have hcond : (ps.map (resourceNeed required t)).all
          (fun is => decide (is = resourceNeed required t r0)) = false := by
        rw [List.all_eq_false]
        refine ⟨resourceNeed required t r, List.mem_map_of_mem _ hr, ?_⟩
        simpa using hner
      have hgen : t.generate_intervals required =
          some (.error
            ("Task produces multiple resources, but intervals are not consistent across needs")) := by
        have h1 : t.generate_intervals required =
            (if (ps.map (resourceNeed required t)).all
                (fun is => decide (is = resourceNeed required t r0)) then
              ((resourceNeed required t r0).foldl
                (fun acc intv =>
                  match acc with
                  | none => none
                  | some a =>
                    match t.clipGen intv with
                    | none => none
                    | some g => some (a ++ g))
                (some [])).map Except.ok
            else
              some (.error
                ("Task produces multiple resources, but intervals are not consistent across needs"))) := by
          unfold Task.generate_intervals
          rw [hmap]
        rw [h1, hcond]
        rfl
      have hP : ∃ r1 ∈ r0 :: ps, ∃ r2 ∈ r0 :: ps,
          resourceNeed required t r1 ≠ resourceNeed required t r2 :=
        ⟨r, List.mem_cons_of_mem _ hr, r0, List.mem_cons_self _ _, hner⟩
      constructor
      · rw [hgen]
        constructor
        · intro _
          exact hP
        · intro _
          exact ⟨_, rfl⟩
      · intro hnp
        exact absurd hP hnp

theorem claim_C5_witness :
    (¬ ∃ r1 ∈ (Task.mk ["a"] ⟨Calendar.new, [37800000, 41400000], 0⟩
        [⟨37800000, 41400000⟩]).provides,
      ∃ r2 ∈ (Task.mk ["a"] ⟨Calendar.new, [37800000, 41400000], 0⟩
        [⟨37800000, 41400000⟩]).provides,
        resourceNeed [("a", [⟨37800000, 41400000⟩])]
            (Task.mk ["a"] ⟨Calendar.new, [37800000, 41400000], 0⟩
              [⟨37800000, 41400000⟩]) r1 ≠
          resourceNeed [("a", [⟨37800000, 41400000⟩])]
            (Task.mk ["a"] ⟨Calendar.new, [37800000, 41400000], 0⟩
              [⟨37800000, 41400000⟩]) r2) ∧
    (Task.mk ["a"] ⟨Calendar.new, [37800000, 41400000], 0⟩
        [⟨37800000, 41400000⟩]).generate_intervals
        [("a", [⟨37800000, 41400000⟩])] =
      match (Task.mk ["a"] ⟨Calendar.new, [37800000, 41400000], 0⟩
          [⟨37800000, 41400000⟩]).provides.head? with
      | none => some (Except.ok [])
      | some r0 =>
        ((resourceNeed [("a", [⟨37800000, 41400000⟩])]
            (Task.mk ["a"] ⟨Calendar.new, [37800000, 41400000], 0⟩
              [⟨37800000, 41400000⟩]) r0).mapM
          (Task.mk ["a"] ⟨Calendar.new, [37800000, 41400000], 0⟩
            [⟨37800000, 41400000⟩]).clipGen).map
          (fun ls => Except.ok ls.flatten) :=
  ⟨by decide,
    (claim_C5_generate_intervals_error_iff
      (Task.mk ["a"] ⟨Calendar.new, [37800000, 41400000], 0⟩ [⟨37800000, 41400000⟩])
      [("a", [⟨37800000, 41400000⟩])]).2 (by decide)⟩

/-! ## Requirement (`src/requirement.rs`) -/

/-- `SingleRequirement`: an `Offset` resource requirement or a filesystem
`File` requirement. -/
inductive SingleRequirement where
  | Offset (resource : String) (offset : Int)
  | File (path : String)

/-- `SingleRequirement::is_satisfied`.  `fsExists` is the ambient filesystem
predicate (`Path::new(path).exists()`), passed as an oracle; `none` models
`schedule.interval` never returning. -/
def SingleRequirement.is_satisfied (req : SingleRequirement) (interval : Interval)
    (schedule : Schedule) (available : List (String × List Interval))
    (fsExists : String → Bool) : Option Bool :=
  match req with
  | .Offset resource offset =>
    match schedule.interval interval.stop offset with
    | none => none
    | some intv =>
      match available.lookup resource with
      | some is => some (decide (IntervalSet.has_subset is intv))
      | none => some false
  | .File path => some (fsExists path)

/-- C6.  An `Offset { resource, offset }` requirement is satisfied for a
reference interval `I` exactly when `available` maps `resource` to an
interval set having `schedule.interval(I.end, offset)` as a subset; a
missing resource is never satisfied; and satisfaction depends on `I` only
through `I.end` — the requirement is evaluated at the action's interval end,
not its start. -/
theorem claim_C6_offset_requirement_satisfaction (resource : String) (offset : Int)
    (I : Interval) (s : Schedule) (available : List (String × List Interval))
    (fs : String → Bool) :
    ((SingleRequirement.Offset resource offset).is_satisfied I s available fs =
        some true ↔
      ∃ intv, s.interval I.stop offset = some intv ∧
        ∃ is, available.lookup resource = some is ∧ IntervalSet.has_subset is intv) ∧
    (available.lookup resource = none →
      (SingleRequirement.Offset resource offset).is_satisfied I s available fs ≠
        some true) ∧
    (∀ J : Interval, J.stop = I.stop →
      (SingleRequirement.Offset resource offset).is_satisfied J s available fs =
        (SingleRequirement.Offset resource offset).is_satisfied I s available fs) := by
  have hsat : ∀ (K : Interval),
      (SingleRequirement.Offset resource offset).is_satisfied K s available fs =
        match s.interval K.stop offset with
        | none => none
        | some intv =>
          match available.lookup resource with
          | some is => some (decide (IntervalSet.has_subset is intv))
          | none => some false := fun K => rfl
  refine ⟨?_, ?_, ?_⟩
  · rw [hsat]
    cases hint : s.interval I.stop offset with
    | none =>
      show (none : Option Bool) = some true ↔ _
      constructor
      · intro h
        cases h
      · rintro ⟨intv, hintv, _⟩
        cases hintv
    | some intv0 =>
      cases hav : available.lookup resource with
      | none =>
        show (some false : Option Bool) = some true ↔ _
        constructor
        · intro h
          simp at h
        · rintro ⟨intv', hintv', is, his, _⟩
          cases his
      | some is0 =>
        show some (decide (IntervalSet.has_subset is0 intv0)) = some true ↔ _
        constructor
        · intro h
          simp only [Option.some.injEq, decide_eq_true_eq] at h
          exact ⟨intv0, rfl, is0, rfl, h⟩
        · rintro ⟨intv', hintv', is', his', hsub⟩
          injection hintv' with h1
          injection his' with h2
          subst h1
          subst h2
          simp only [Option.some.injEq, decide_eq_true_eq]
          exact hsub
  · intro hnone
    rw [hsat]
    cases hint : s.interval I.stop offset with
    | none =>
      show (none : Option Bool) ≠ some true
      simp
    | some intv0 =>
      rw [hnone]
      show (some false : Option Bool) ≠ some true
      simp
  · intro J hJ
    rw [hsat, hsat, hJ]

theorem claim_C6_witness :
    ((SingleRequirement.Offset ("a") 0).is_satisfied ⟨0, 41400000⟩
        ⟨Calendar.new, [37800000, 41400000], 0⟩
        [("a", [⟨0, 86400000⟩])] (fun _ => false) = some true ↔
      ∃ intv, (⟨Calendar.new, [37800000, 41400000], 0⟩ : Schedule).interval
          (Interval.mk 0 41400000).stop 0 = some intv ∧
        ∃ is, [("a", [(⟨0, 86400000⟩ : Interval)])].lookup ("a") = some is ∧
          IntervalSet.has_subset is intv) ∧
    ([("a", [(⟨0, 86400000⟩ : Interval)])].lookup ("a") = none →
      (SingleRequirement.Offset ("a") 0).is_satisfied ⟨0, 41400000⟩
        ⟨Calendar.new, [37800000, 41400000], 0⟩
        [("a", [⟨0, 86400000⟩])] (fun _ => false) ≠ some true) ∧
    (∀ J : Interval, J.stop = (Interval.mk 0 41400000).stop →
      (SingleRequirement.Offset ("a") 0).is_satisfied J
          ⟨Calendar.new, [37800000, 41400000], 0⟩
          [("a", [⟨0, 86400000⟩])] (fun _ => false) =
        (SingleRequirement.Offset ("a") 0).is_satisfied ⟨0, 41400000⟩
          ⟨Calendar.new, [37800000, 41400000], 0⟩
          [("a", [⟨0, 86400000⟩])] (fun _ => false)) :=
  claim_C6_offset_requirement_satisfaction ("a") 0 ⟨0, 41400000⟩
    ⟨Calendar.new, [37800000, 41400000], 0⟩ [("a", [⟨0, 86400000⟩])] (fun _ => false)

/-! ## Output handling (`src/executors/mod.rs`, `src/executors/local_executor.rs`)

Process output is modelled as a list of single-byte characters, for which
Rust's byte length (`data.len()`), `chars().count()` and the `f64`-ceiling
`charsize` computation coincide (`charsize = 1` — here written as a `Nat`
ceiling division). -/

/-- `TaskOutputOptions`. -/
structure TaskOutputOptions where
  discard_successful : Bool
  truncate : Bool
  head_bytes : Nat
  tail_bytes : Nat

/-- `head_tail`: keep the first / last bytes of a string. -/
def head_tail (data : List Char) (head tail : Nat) : List Char :=
  if data.length < head + tail then data
  else
    let n_chars := data.length
    let charsize := (data.length + n_chars - 1) / n_chars
    let head_chars := head / charsize
    let tail_chars := tail / charsize
    let tl := (data.reverse.take tail_chars).reverse
    data.take head_chars ++ ('\n' :: '.' :: '.' :: '.' :: '\n' :: []) ++ tl

/-- The output-recording step at the end of `run_task`
(`src/executors/local_executor.rs`): output is discarded for successful runs
under `discard_successful`; under `truncate` the source reassigns
`stdout = head_tail(&stdout, ..)` and then — reusing the already-truncated
`stdout` — `stderr = head_tail(&stdout, ..)`.  Returns the recorded
`(output, error)` pair of the `TaskAttempt`. -/
def recordOutput (opts : TaskOutputOptions) (succeeded : Bool)
    (stdout stderr : List Char) : List Char × List Char :=
  if ¬ (succeeded ∧ opts.discard_successful) then
    if opts.truncate then
      (head_tail stdout opts.head_bytes opts.tail_bytes,
        head_tail (head_tail stdout opts.head_bytes opts.tail_bytes)
          opts.head_bytes opts.tail_bytes)
    else (stdout, stderr)
  else ([], [])

/-- C7 (code bug).  With `truncate` set and the output kept, the recorded
`error` field is computed from `stdout`, not `stderr`: at the inputs below
(the string of the source's own `head_tail` unit test as stdout, a distinct
stderr) the recorded error differs from `head_tail(stderr, 5, 5)` and
instead equals `head_tail` applied (twice) to stdout, while `head_tail`
itself behaves as the claim says — short data unchanged, long data reduced
to the first `head` and last `tail` characters joined by a `\n...\n`
marker. -/
theorem claim_C7_truncation_reuses_stdout :
    (recordOutput ⟨false, true, 5, 5⟩ false ("This is a very long string".toList)
        ("ERROR ERROR ERROR ERROR".toList)).2 ≠
      head_tail ("ERROR ERROR ERROR ERROR".toList) 5 5 ∧
    (recordOutput ⟨false, true, 5, 5⟩ false ("This is a very long string".toList)
        ("ERROR ERROR ERROR ERROR".toList)).2 =
      head_tail (head_tail ("This is a very long string".toList) 5 5) 5 5 ∧
    (recordOutput ⟨false, true, 5, 5⟩ false ("This is a very long string".toList)
        ("ERROR ERROR ERROR ERROR".toList)).1 =
      head_tail ("This is a very long string".toList) 5 5 ∧
    head_tail ("This is a very long string".toList) 5 5 =
      ("This \n...\ntring".toList) ∧
    head_tail ("This is a very long string".toList) 50 50 =
      ("This is a very long string".toList) := by
  decide

/-! ## Storage (`src/storage/mod.rs`, `src/storage/memory.rs`) -/

/-- `StorageMessage`.  Attempt and state payloads stand for their
`serde_json` serializations; `StoreAttempt` carries the `interval.end`
component used in the storage key. -/
inductive StorageMessage where
  | Clear
  | StoreAttempt (task_name : String) (intervalEnd : Int) (attempt : String)
  | StoreState (state : String)
  | LoadState
  | Stop
deriving DecidableEq

def StorageMessage.isStoreState : StorageMessage → Bool
  | .StoreState _ => true
  | _ => false

def StorageMessage.isStop : StorageMessage → Bool
  | .Stop => true
  | _ => false

/-- `HashMap::insert` on the association-list model. -/
def mapInsert (m : List (String × String)) (k v : String) :
    List (String × String) :=
  (k, v) :: m.filter (fun kv => decide (kv.1 ≠ k))

/-- The key under which `start_memory_storage` stores an attempt:
`format!("{}_{}", task_name, interval.end)`. -/
def attemptTag (task_name : String) (intervalEnd : Int) : String :=
  task_name ++ "_" ++ toString intervalEnd

/-- The message loop of `start_memory_storage` over a list of inbound
messages, threading the `system_state` map and collecting `LoadState`
replies.  `none` models the panic in the `LoadState` arm:
`system_state.get("state").unwrap()` on a missing key. -/
def memoryRun : List (String × String) → List StorageMessage →
    Option (List (String × String) × List String)
  | st, [] => some (st, [])
  | _, .Clear :: ms => memoryRun [] ms
  | st, .StoreAttempt tn ie att :: ms =>
    memoryRun (mapInsert st (attemptTag tn ie) att) ms
  | st, .StoreState state :: ms => memoryRun (mapInsert st ("state") state) ms
  | st, .LoadState :: ms =>
    match st.lookup ("state") with
    | none => none
    | some payload =>
      match memoryRun st ms with
      | none => none
      | some (st', rs) => some (st', payload :: rs)
  | st, .Stop :: _ => some (st, [])

theorem lookup_filter_none {k : String} {l : List (String × String)}
    (h : l.lookup k = none) (p : String × String → Bool) :
    (l.filter p).lookup k = none := by
  induction l with
  | nil => rfl
  | cons kv l' ih =>
    obtain ⟨k1, v1⟩ := kv
    cases hk : k == k1 with
    | true =>
      have h2 : List.lookup k ((k1, v1) :: l') = some v1 := by
        show (match k == k1 with
          | true => some v1
          | false => List.lookup k l') = some v1
        rw [hk]
      rw [h2] at h
      cases h
    | false =>
      have h2 : List.lookup k ((k1, v1) :: l') = List.lookup k l' := by
        show (match k == k1 with
          | true => some v1
          | false => List.lookup k l') = List.lookup k l'
        rw [hk]
      rw [h2] at h
      rw [List.filter_cons]
      by_cases hp : p (k1, v1)
      · rw [if_pos hp]
        have h3 : List.lookup k ((k1, v1) :: l'.filter p) =
            List.lookup k (l'.filter p) := by
          show (match k == k1 with
            | true => some v1
            | false => List.lookup k (l'.filter p)) = List.lookup k (l'.filter p)
          rw [hk]
        rw [h3]
        exact ih h
      · rw [if_neg hp]
        exact ih h

theorem attemptTag_ne_state (tn : String) (ie : Int) :
    attemptTag tn ie ≠ ("state") := by
  intro h
  have hmem : '_' ∈ (attemptTag tn ie).data := by
    unfold attemptTag
    rw [String.data_append, String.data_append]
    apply List.mem_append_left
    apply List.mem_append_right
    show '_' ∈ ("_").data
    decide
  rw [h] at hmem
  revert hmem
  decide

/-- C9 (code bug).  If no `StoreState` has ever been processed (and the
actor has not been stopped), a `LoadState` message makes the in-memory
storage panic — `system_state.get("state").unwrap()` on a missing key — so
it never produces the empty-ResourceInterval reply the claim promises (the
redis implementation, by contrast, defaults the missing key to `"{}"`). -/
theorem claim_C9_memory_loadstate_panics (ms : List StorageMessage)
    (hns : ∀ m ∈ ms, m.isStoreState = false ∧ m.isStop = false) :
    memoryRun [] (ms ++ [StorageMessage.LoadState]) = none := by
  have key : ∀ (ms' : List StorageMessage) (st : List (String × String)),
      (∀ m ∈ ms', m.isStoreState = false ∧ m.isStop = false) →
      st.lookup ("state") = none →
      memoryRun st (ms' ++ [StorageMessage.LoadState]) = none := by
    intro ms'
    induction ms' with
    | nil =>
      intro st _ hst
      show (match st.lookup ("state") with
        | none => none
        | some payload =>
          match memoryRun st [] with
          | none => none
          | some (st', rs) => some (st', payload :: rs)) = none
      rw [hst]
    | cons m ms'' ih =>
      intro st hm hst
      have hm1 := hm m (List.mem_cons_self _ _)
      have hm2 : ∀ m' ∈ ms'', m'.isStoreState = false ∧ m'.isStop = false :=
        fun m' hm' => hm m' (List.mem_cons_of_mem _ hm')
      cases m with
      | Clear =>
        show memoryRun [] (ms'' ++ [StorageMessage.LoadState]) = none
        exact ih [] hm2 rfl
      | StoreAttempt tn ie att =>
        show memoryRun (mapInsert st (attemptTag tn ie) att)
            (ms'' ++ [StorageMessage.LoadState]) = none
        apply ih _ hm2
        have hne : (("state" : String) == attemptTag tn ie) = false :=
          beq_eq_false_iff_ne.mpr (Ne.symm (attemptTag_ne_state tn ie))
        show (match ("state" : String) == attemptTag tn ie with
          | true => some att
          | false =>
            List.lookup ("state")
              (st.filter (fun kv => decide (kv.1 ≠ attemptTag tn ie)))) = none
        rw [hne]
        exact lookup_filter_none hst _
      | StoreState state =>
        exact absurd hm1.1 (by simp [StorageMessage.isStoreState])
      | LoadState =>
        show (match st.lookup ("state") with
          | none => none
          | some payload =>
            match memoryRun st (ms'' ++ [StorageMessage.LoadState]) with
            | none => none
            | some (st', rs) => some (st', payload :: rs)) = none
        rw [hst]
      | Stop =>
        exact absurd hm1.2 (by simp [StorageMessage.isStop])
  exact key ms [] hns rfl

theorem claim_C9_witness :
    (∀ m ∈ [StorageMessage.Clear,
        StorageMessage.StoreAttempt ("t") 5 ("x")],
      m.isStoreState = false ∧ m.isStop = false) ∧
    memoryRun [] ([StorageMessage.Clear,
        StorageMessage.StoreAttempt ("t") 5 ("x")] ++
      [StorageMessage.LoadState]) = none :=
  ⟨by decide,
    claim_C9_memory_loadstate_panics
      [StorageMessage.Clear, StorageMessage.StoreAttempt ("t") 5 ("x")]
      (by decide)⟩

/-! ### VarMap (src/varmap.rs) -/

/-- One fuelled step-scan implementing Rust's `str::replace`: scan left to
right, and at each position where `pat` is a prefix, emit `rep` and continue
after the match (non-overlapping).  With `fuel = s.length` the fuel never
runs out, since every step consumes at least one character. -/
def replaceAllAux (pat rep : List Char) : Nat → List Char → List Char
  | 0, s => s
  | _ + 1, [] => []
  | fuel + 1, c :: cs =>
    if pat.isPrefixOf (c :: cs) then
      rep ++ replaceAllAux pat rep fuel (cs.drop (pat.length - 1))
    else
      c :: replaceAllAux pat rep fuel cs

/-- Rust `s.replace(pat, rep)` on character lists. -/
def replaceAll (s pat rep : List Char) : List Char :=
  replaceAllAux pat rep s.length s

/-- The pattern Rust builds for a key: a dollar sign, an opening brace, the
key, and a closing brace. -/
def sigil (key : List Char) : List Char :=
  '$' :: '\x7b' :: (key ++ ['\x7d'])

/-- `VarMap::apply_to`: fold `replace` of each key's sigil by its value over
the entries, in iteration order. -/
def VarMap.apply_to (vm : List (List Char × List Char)) (s : List Char) :
    List Char :=
  vm.foldl (fun expanded kv => replaceAll expanded (sigil kv.1) kv.2) s

/-- A decomposition of a string into literal chunks and variable sigils. -/
inductive Token where
  | lit (s : List Char)
  | var (name : List Char)
deriving DecidableEq

def renderTok : Token → List Char
  | .lit s => s
  | .var n => sigil n

def render (ts : List Token) : List Char :=
  (ts.map renderTok).flatten

/-- A variable name free of the dollar and brace characters. -/
def goodName (n : List Char) : Prop :=
  '$' ∉ n ∧ '\x7b' ∉ n ∧ '\x7d' ∉ n

/-- Well-formed token: literal chunks carry no dollar sign, variable names
are good. -/
def wfTok : Token → Prop
  | .lit s => '$' ∉ s
  | .var n => goodName n

instance (n : List Char) : Decidable (goodName n) :=
  inferInstanceAs (Decidable ('$' ∉ n ∧ '\x7b' ∉ n ∧ '\x7d' ∉ n))

instance : (t : Token) → Decidable (wfTok t)
  | .lit s => inferInstanceAs (Decidable ('$' ∉ s))
  | .var n => inferInstanceAs (Decidable (goodName n))

/-- The effect of one `replace` pass on a token. -/
def substOne (k v : List Char) (t : Token) : Token :=
  if t = Token.var k then Token.lit v else t

/-- The effect of a full `apply_to` on a token: a present key's sigil becomes
its value, a missing variable stays literal. -/
def substTok (vm : List (List Char × List Char)) : Token → Token
  | .lit s => .lit s
  | .var n =>
    match vm.lookup n with
    | some v => .lit v
    | none => .var n

theorem replaceAllAux_nil (pat rep : List Char) (fuel : Nat) :
    replaceAllAux pat rep fuel [] = [] := by
  cases fuel <;> rfl

theorem replaceAllAux_cons (pat rep : List Char) (fuel : Nat) (c : Char)
    (cs : List Char) :
    replaceAllAux pat rep (fuel + 1) (c :: cs) =
      if pat.isPrefixOf (c :: cs) then
        rep ++ replaceAllAux pat rep fuel (cs.drop (pat.length - 1))
      else
        c :: replaceAllAux pat rep fuel cs := rfl

theorem replaceAllAux_skip (p rep : List Char) (l : List Char) :
    '$' ∉ l → ∀ (fuel : Nat) (r : List Char),
      replaceAllAux ('$' :: p) rep (l.length + fuel) (l ++ r) =
        l ++ replaceAllAux ('$' :: p) rep fuel r := by
  induction l with
  | nil => intro _ fuel r; simp
  | cons c l' ih =>
    intro h fuel r
    have hc : ('$' == c) = false := by
      have hcc : c ≠ '$' := fun hcc => h (by rw [hcc]; exact List.mem_cons_self _ _)
      exact beq_eq_false_iff_ne.mpr (Ne.symm hcc)
    have hlen : (c :: l').length + fuel = (l'.length + fuel) + 1 := by
      rw [List.length_cons]; omega
    rw [hlen, List.cons_append, replaceAllAux_cons]
    have hpre : (('$' :: p).isPrefixOf (c :: (l' ++ r))) = false := by
      show (('$' == c) && p.isPrefixOf (l' ++ r)) = false
      rw [hc, Bool.false_and]
    rw [if_neg (by simp [hpre])]
    rw [ih (fun hm => h (List.mem_cons_of_mem c hm)) fuel r, List.cons_append]

theorem isPrefixOf_append_self (l r : List Char) :
    (l.isPrefixOf (l ++ r)) = true := by
  induction l with
  | nil => cases r <;> rfl
  | cons c l' ih =>
    show ((c == c) && l'.isPrefixOf (l' ++ r)) = true
    rw [beq_self_eq_true, ih, Bool.true_and]

theorem replaceAllAux_hit (p rep : List Char) (fuel : Nat) (r : List Char) :
    replaceAllAux ('$' :: p) rep (fuel + 1) (('$' :: p) ++ r) =
      rep ++ replaceAllAux ('$' :: p) rep fuel r := by
  rw [List.cons_append, replaceAllAux_cons]
  have hpre : (('$' :: p).isPrefixOf ('$' :: (p ++ r))) = true :=
    isPrefixOf_append_self ('$' :: p) r
  rw [if_pos hpre]
  have hlen : ('$' :: p).length - 1 = p.length := by
    rw [List.length_cons]; omega
  rw [hlen, List.drop_left]

theorem key_isPrefixOf_eq (r : List Char) (k : List Char) :
    ∀ k' : List Char, '\x7d' ∉ k → '\x7d' ∉ k' →
      ((k ++ ['\x7d']).isPrefixOf (k' ++ '\x7d' :: r)) = true → k = k' := by
  induction k with
  | nil =>
    intro k' _ h' hp
    cases k' with
    | nil => rfl
    | cons c k'2 =>
      exfalso
      have e1 : ((([] : List Char) ++ ['\x7d']).isPrefixOf
            ((c :: k'2) ++ '\x7d' :: r)) =
          (('\x7d' == c) && (([] : List Char).isPrefixOf (k'2 ++ '\x7d' :: r))) := rfl
      rw [e1, Bool.and_eq_true] at hp
      have hc : '\x7d' = c := eq_of_beq hp.1
      exact h' (by rw [hc]; exact List.mem_cons_self _ _)
  | cons a k2 ih =>
    intro k' h h' hp
    cases k' with
    | nil =>
      exfalso
      have e1 : (((a :: k2) ++ ['\x7d']).isPrefixOf
            (([] : List Char) ++ '\x7d' :: r)) =
          ((a == '\x7d') && ((k2 ++ ['\x7d']).isPrefixOf r)) := rfl
      rw [e1, Bool.and_eq_true] at hp
      have ha : a = '\x7d' := eq_of_beq hp.1
      exact h (by rw [← ha]; exact List.mem_cons_self _ _)
    | cons b k'2 =>
      have e1 : (((a :: k2) ++ ['\x7d']).isPrefixOf
            ((b :: k'2) ++ '\x7d' :: r)) =
          ((a == b) && ((k2 ++ ['\x7d']).isPrefixOf (k'2 ++ '\x7d' :: r))) := rfl
      rw [e1, Bool.and_eq_true] at hp
      have ha : a = b := eq_of_beq hp.1
      have h2 : '\x7d' ∉ k2 := fun hm => h (List.mem_cons_of_mem a hm)
      have h'2 : '\x7d' ∉ k'2 := fun hm => h' (List.mem_cons_of_mem b hm)
      rw [ha, ih k'2 h2 h'2 hp.2]

theorem sigil_no_match (k k' r : List Char) (hk : goodName k)
    (hk' : goodName k') (hne : k ≠ k') :
    ((sigil k).isPrefixOf ('$' :: (('\x7b' :: (k' ++ ['\x7d'])) ++ r))) = false := by
  cases hx : (sigil k).isPrefixOf ('$' :: (('\x7b' :: (k' ++ ['\x7d'])) ++ r)) with
  | false => rfl
  | true =>
    exfalso
    have e0 : ((sigil k).isPrefixOf ('$' :: (('\x7b' :: (k' ++ ['\x7d'])) ++ r))) =
        ((k ++ ['\x7d']).isPrefixOf ((k' ++ ['\x7d']) ++ r)) := by
      show (('$' == '$') && (('\x7b' == '\x7b') &&
          ((k ++ ['\x7d']).isPrefixOf ((k' ++ ['\x7d']) ++ r)))) = _
      rw [beq_self_eq_true, beq_self_eq_true, Bool.true_and, Bool.true_and]
    rw [e0, List.append_assoc] at hx
    exact hne (key_isPrefixOf_eq r k k' hk.2.2 hk'.2.2 hx)

theorem replaceAllAux_miss (k k' rep : List Char) (hk : goodName k)
    (hk' : goodName k') (hne : k ≠ k') (fuel : Nat) (r : List Char) :
    replaceAllAux (sigil k) rep (fuel + (sigil k').length) (sigil k' ++ r) =
      sigil k' ++ replaceAllAux (sigil k) rep fuel r := by
  have e2 : sigil k' ++ r = '$' :: (('\x7b' :: (k' ++ ['\x7d'])) ++ r) := rfl
  have hlen : fuel + (sigil k').length =
      (('\x7b' :: (k' ++ ['\x7d'])).length + fuel) + 1 := by
    simp only [sigil, List.length_cons, List.length_append]
    omega
  rw [e2, hlen, replaceAllAux_cons]
  rw [if_neg (fun hcon => by
    rw [sigil_no_match k k' r hk hk' hne] at hcon
    exact Bool.false_ne_true hcon)]
  have e1 : sigil k = '$' :: ('\x7b' :: (k ++ ['\x7d'])) := rfl
  rw [e1]
  have hd : '$' ∉ ('\x7b' :: (k' ++ ['\x7d'])) := by
    intro hm
    rw [List.mem_cons] at hm
    rcases hm with h1 | h1
    · exact absurd h1 (by decide)
    · rw [List.mem_append] at h1
      rcases h1 with h1 | h1
      · exact hk'.1 h1
      · exact absurd h1 (by decide)
  rw [replaceAllAux_skip ('\x7b' :: (k ++ ['\x7d'])) rep
    ('\x7b' :: (k' ++ ['\x7d'])) hd fuel r]
  rfl

theorem render_cons (t : Token) (ts : List Token) :
    render (t :: ts) = renderTok t ++ render ts := by
  simp [render]

theorem substOne_lit (k v s : List Char) :
    substOne k v (Token.lit s) = Token.lit s := by
  simp [substOne]

theorem substOne_var_self (k v : List Char) :
    substOne k v (Token.var k) = Token.lit v := by
  simp [substOne]

theorem substOne_var_ne (k v n : List Char) (h : n ≠ k) :
    substOne k v (Token.var n) = Token.var n := by
  simp [substOne, h]

theorem replaceAllAux_render (k v : List Char) (hk : goodName k)
    (ts : List Token) (hts : ∀ t ∈ ts, wfTok t) :
    ∀ fuel, (render ts).length ≤ fuel →
      replaceAllAux (sigil k) v fuel (render ts) =
        render (ts.map (substOne k v)) := by
  induction ts with
  | nil =>
    intro fuel _
    have h0 : render ([] : List Token) = [] := rfl
    rw [h0, replaceAllAux_nil]
    rfl
  | cons t ts' ih =>
    intro fuel hfuel
    have hts' : ∀ u ∈ ts', wfTok u := fun u hu => hts u (List.mem_cons_of_mem t hu)
    have hwt : wfTok t := hts t (List.mem_cons_self t ts')
    rw [render_cons] at hfuel ⊢
    cases t with
    | lit l =>
      have hdl : '$' ∉ l := hwt
      have hrTok : renderTok (Token.lit l) = l := rfl
      rw [hrTok] at hfuel ⊢
      obtain ⟨fuel', hf1, hf2⟩ :
          ∃ f', fuel = l.length + f' ∧ (render ts').length ≤ f' := by
        refine ⟨fuel - l.length, ?_, ?_⟩ <;>
          (rw [List.length_append] at hfuel; omega)
      subst hf1
      have e1 : sigil k = '$' :: ('\x7b' :: (k ++ ['\x7d'])) := rfl
      rw [e1, replaceAllAux_skip ('\x7b' :: (k ++ ['\x7d'])) v l hdl fuel'
        (render ts'), ← e1]
      rw [ih hts' fuel' hf2]
      rw [List.map_cons, substOne_lit, render_cons]
      rfl
    | var n =>
      have hgn : goodName n := hwt
      have hrTok : renderTok (Token.var n) = sigil n := rfl
      rw [hrTok] at hfuel ⊢
      by_cases hnk : n = k
      · subst hnk
        obtain ⟨fuel', hf1, hf2⟩ :
            ∃ f', fuel = f' + 1 ∧ (render ts').length ≤ f' := by
          have hlen : (sigil n).length = n.length + 3 := by
            simp only [sigil, List.length_cons, List.length_append, List.length_nil]
          rw [List.length_append, hlen] at hfuel
          exact ⟨fuel - 1, by omega, by omega⟩
        subst hf1
        have e1 : sigil n = '$' :: ('\x7b' :: (n ++ ['\x7d'])) := rfl
        rw [e1, replaceAllAux_hit, ← e1]
        rw [ih hts' fuel' hf2]
        rw [List.map_cons, substOne_var_self, render_cons]
        rfl
      · obtain ⟨fuel', hf1, hf2⟩ :
            ∃ f', fuel = f' + (sigil n).length ∧ (render ts').length ≤ f' := by
          rw [List.length_append] at hfuel
          exact ⟨fuel - (sigil n).length, by omega, by omega⟩
        subst hf1
        have hkn : k ≠ n := fun h5 => hnk h5.symm
        rw [replaceAllAux_miss k n v hk hgn hkn fuel' (render ts')]
        rw [ih hts' fuel' hf2]
        rw [List.map_cons, substOne_var_ne k v n hnk, render_cons]
        rfl

theorem replaceAll_render (k v : List Char) (hk : goodName k)
    (ts : List Token) (hts : ∀ t ∈ ts, wfTok t) :
    replaceAll (render ts) (sigil k) v = render (ts.map (substOne k v)) :=
  replaceAllAux_render k v hk ts hts (render ts).length (Nat.le_refl _)

theorem wfTok_substOne (k v : List Char) (hv : '$' ∉ v) (t : Token)
    (h : wfTok t) : wfTok (substOne k v t) := by
  cases t with
  | lit s => rw [substOne_lit]; exact h
  | var n =>
    by_cases hnk : n = k
    · subst hnk; rw [substOne_var_self]; exact hv
    · rw [substOne_var_ne k v n hnk]; exact h

theorem substTok_cons (k v : List Char) (vm : List (List Char × List Char))
    (t : Token) :
    substTok ((k, v) :: vm) t = substTok vm (substOne k v t) := by
  cases t with
  | lit s => rfl
  | var n =>
    by_cases hnk : n = k
    · subst hnk
      rw [substOne_var_self]
      have hlk : (((n, v) :: vm).lookup n) = some v := by
        show (match n == n with
          | true => some v
          | false => List.lookup n vm) = some v
        rw [beq_self_eq_true]
      show (match ((n, v) :: vm).lookup n with
        | some v2 => Token.lit v2
        | none => Token.var n) = Token.lit v
      rw [hlk]
    · rw [substOne_var_ne k v n hnk]
      have hbe : (n == k) = false := beq_eq_false_iff_ne.mpr hnk
      have hlk : (((k, v) :: vm).lookup n) = vm.lookup n := by
        show (match n == k with
          | true => some v
          | false => List.lookup n vm) = vm.lookup n
        rw [hbe]
      show (match ((k, v) :: vm).lookup n with
        | some v2 => Token.lit v2
        | none => Token.var n) = substTok vm (Token.var n)
      rw [hlk]
      rfl

theorem apply_to_render :
    ∀ (vm : List (List Char × List Char)),
      (∀ kv ∈ vm, goodName kv.1 ∧ '$' ∉ kv.2) →
      ∀ ts : List Token, (∀ t ∈ ts, wfTok t) →
        VarMap.apply_to vm (render ts) = render (ts.map (substTok vm)) := by
  intro vm
  induction vm with
  | nil =>
    intro _ ts _
    have h1 : VarMap.apply_to [] (render ts) = render ts := rfl
    rw [h1]
    have h3 : ∀ t ∈ ts, substTok [] t = id t := by
      intro t _
      cases t <;> rfl
    rw [List.map_congr_left h3, List.map_id]
  | cons kv vm' ih =>
    intro hvm ts hts
    obtain ⟨k, v⟩ := kv
    have hk : goodName k ∧ '$' ∉ v := hvm (k, v) (List.mem_cons_self _ _)
    have hvm' : ∀ kv2 ∈ vm', goodName kv2.1 ∧ '$' ∉ kv2.2 :=
      fun kv2 h2 => hvm kv2 (List.mem_cons_of_mem _ h2)
    have hstep : VarMap.apply_to ((k, v) :: vm') (render ts) =
        VarMap.apply_to vm' (replaceAll (render ts) (sigil k) v) := rfl
    rw [hstep, replaceAll_render k v hk.1 ts hts]
    have hwf2 : ∀ u ∈ ts.map (substOne k v), wfTok u := by
      intro u hu
      rw [List.mem_map] at hu
      obtain ⟨t0, ht0, h5⟩ := hu
      rw [← h5]
      exact wfTok_substOne k v hk.2 t0 (hts t0 ht0)
    rw [ih hvm' (ts.map (substOne k v)) hwf2]
    rw [List.map_map]
    have h4 : ∀ t ∈ ts, (substTok vm' ∘ substOne k v) t = substTok ((k, v) :: vm') t := by
      intro t _
      exact (substTok_cons k v vm' t).symm
    rw [List.map_congr_left h4]

theorem lookup_mem {l : List (List Char × List Char)} {n v : List Char}
    (h : l.lookup n = some v) : (n, v) ∈ l := by
  induction l with
  | nil => cases h
  | cons kv l' ih =>
    obtain ⟨k1, v1⟩ := kv
    cases hk : n == k1 with
    | true =>
      have h2 : List.lookup n ((k1, v1) :: l') = some v1 := by
        show (match n == k1 with
          | true => some v1
          | false => List.lookup n l') = some v1
        rw [hk]
      rw [h2] at h
      injection h with h3
      have h4 : n = k1 := eq_of_beq hk
      rw [h4, h3]
      exact List.mem_cons_self _ _
    | false =>
      have h2 : List.lookup n ((k1, v1) :: l') = List.lookup n l' := by
        show (match n == k1 with
          | true => some v1
          | false => List.lookup n l') = List.lookup n l'
        rw [hk]
      rw [h2] at h
      exact List.mem_cons_of_mem _ (ih h)

theorem lookup_eq_none_iff {l : List (List Char × List Char)} {n : List Char} :
    l.lookup n = none ↔ n ∉ l.map Prod.fst := by
  induction l with
  | nil => simp
  | cons kv l' ih =>
    obtain ⟨k1, v1⟩ := kv
    cases hk : n == k1 with
    | true =>
      have h2 : List.lookup n ((k1, v1) :: l') = some v1 := by
        show (match n == k1 with
          | true => some v1
          | false => List.lookup n l') = some v1
        rw [hk]
      rw [h2]
      constructor
      · intro h5; cases h5
      · intro hmem
        exfalso
        apply hmem
        rw [List.map_cons, eq_of_beq hk]
        exact List.mem_cons_self _ _
    | false =>
      have h2 : List.lookup n ((k1, v1) :: l') = List.lookup n l' := by
        show (match n == k1 with
          | true => some v1
          | false => List.lookup n l') = List.lookup n l'
        rw [hk]
      rw [h2, List.map_cons, ih]
      constructor
      · intro h5 hmem
        rw [List.mem_cons] at hmem
        rcases hmem with h6 | h6
        · have h7 : n = k1 := h6
          rw [h7] at hk
          simp at hk
        · exact h5 h6
      · intro h5 hmem
        exact h5 (List.mem_cons_of_mem _ hmem)

theorem lookup_of_mem_nodup {l : List (List Char × List Char)} {n v : List Char}
    (hnd : (l.map Prod.fst).Nodup) (hm : (n, v) ∈ l) : l.lookup n = some v := by
  induction l with
  | nil => cases hm
  | cons kv l' ih =>
    obtain ⟨k1, v1⟩ := kv
    rw [List.map_cons, List.nodup_cons] at hnd
    rw [List.mem_cons] at hm
    rcases hm with h1 | h1
    · have hn : n = k1 := congrArg Prod.fst h1
      have hv : v = v1 := congrArg Prod.snd h1
      show (match n == k1 with
        | true => some v1
        | false => List.lookup n l') = some v
      rw [hn, beq_self_eq_true, hv]
    · have hn1 : n ≠ k1 := by
        intro he
        have hmem : n ∈ l'.map Prod.fst := List.mem_map.mpr ⟨(n, v), h1, rfl⟩
        rw [he] at hmem
        exact hnd.1 hmem
      have hbe : (n == k1) = false := beq_eq_false_iff_ne.mpr hn1
      show (match n == k1 with
        | true => some v1
        | false => List.lookup n l') = some v
      rw [hbe]
      exact ih hnd.2 h1

theorem lookup_perm {vm vm' : List (List Char × List Char)}
    (hp : vm.Perm vm') (hnd : (vm.map Prod.fst).Nodup) (n : List Char) :
    vm.lookup n = vm'.lookup n := by
  have hnd' : (vm'.map Prod.fst).Nodup := (hp.map Prod.fst).nodup hnd
  cases h : vm.lookup n with
  | some v =>
    have hm : (n, v) ∈ vm' := hp.subset (lookup_mem h)
    rw [lookup_of_mem_nodup hnd' hm]
  | none =>
    have h1 : n ∉ vm.map Prod.fst := lookup_eq_none_iff.mp h
    have h2 : n ∉ vm'.map Prod.fst := fun hmem =>
      h1 ((hp.map Prod.fst).mem_iff.mpr hmem)
    rw [lookup_eq_none_iff.mpr h2]

/-- C8.  The claim as frozen is false: when a value contains another key's
sigil, the result depends on the iteration order of the entries (see the
counterexample).  Amended: on inputs that decompose into literal chunks and
variable sigils — literal text and substituted values free of the dollar
character, key names free of dollar and brace characters — `apply_to`
substitutes each sigil of a present key by its value, leaves sigils of
missing keys literal, and, when the keys are distinct (as Rust's `HashMap`
guarantees), is independent of the iteration order of the entries. -/
theorem claim_C8_order_independent_substitution
    (vm : List (List Char × List Char)) (ts : List Token)
    (hvm : ∀ kv ∈ vm, goodName kv.1 ∧ '$' ∉ kv.2)
    (hts : ∀ t ∈ ts, wfTok t) :
    VarMap.apply_to vm (render ts) = render (ts.map (substTok vm)) ∧
    (∀ vm', vm.Perm vm' → (vm.map Prod.fst).Nodup →
      VarMap.apply_to vm' (render ts) = VarMap.apply_to vm (render ts)) := by
  refine ⟨apply_to_render vm hvm ts hts, ?_⟩
  intro vm' hp hnd
  have hvm' : ∀ kv ∈ vm', goodName kv.1 ∧ '$' ∉ kv.2 :=
    fun kv h => hvm kv (hp.symm.subset h)
  rw [apply_to_render vm' hvm' ts hts, apply_to_render vm hvm ts hts]
  have h4 : ∀ t ∈ ts, substTok vm' t = substTok vm t := by
    intro t _
    cases t with
    | lit s => rfl
    | var n =>
      show (match vm'.lookup n with
        | some v2 => Token.lit v2
        | none => Token.var n) = substTok vm (Token.var n)
      rw [← lookup_perm hp hnd n]
      rfl
  rw [List.map_congr_left h4]

/-- C8, counterexample to the claim as frozen: with the map sending `a` to
the sigil of `b` and `b` to `X`, applying to the sigil of `a` yields `X` in
one iteration order and the sigil of `b` in the other, because the first
order's second pass re-scans the value substituted by its first pass. -/
theorem claim_C8_counterexample :
    List.Perm
        [((['a'] : List Char), ['$', '\x7b', 'b', '\x7d']), (['b'], ['X'])]
        [((['b'] : List Char), ['X']), (['a'], ['$', '\x7b', 'b', '\x7d'])] ∧
    VarMap.apply_to
        [((['a'] : List Char), ['$', '\x7b', 'b', '\x7d']), (['b'], ['X'])]
        ['$', '\x7b', 'a', '\x7d'] = ['X'] ∧
    VarMap.apply_to
        [((['b'] : List Char), ['X']), (['a'], ['$', '\x7b', 'b', '\x7d'])]
        ['$', '\x7b', 'a', '\x7d'] = ['$', '\x7b', 'b', '\x7d'] ∧
    (['X'] : List Char) ≠ ['$', '\x7b', 'b', '\x7d'] :=
  ⟨by decide, by decide, by decide, by decide⟩

theorem claim_C8_witness :
    VarMap.apply_to [((['t'] : List Char), ['a', 'l']), (['u'], ['b'])]
        (render [Token.lit ['X'], Token.var ['t'], Token.var ['z']]) =
      render ([Token.lit ['X'], Token.var ['t'], Token.var ['z']].map
        (substTok [((['t'] : List Char), ['a', 'l']), (['u'], ['b'])])) ∧
    VarMap.apply_to [((['u'] : List Char), ['b']), (['t'], ['a', 'l'])]
        (render [Token.lit ['X'], Token.var ['t'], Token.var ['z']]) =
      VarMap.apply_to [((['t'] : List Char), ['a', 'l']), (['u'], ['b'])]
        (render [Token.lit ['X'], Token.var ['t'], Token.var ['z']]) :=
  ⟨(claim_C8_order_independent_substitution
      [((['t'] : List Char), ['a', 'l']), (['u'], ['b'])]
      [Token.lit ['X'], Token.var ['t'], Token.var ['z']]
      (by decide) (by decide)).1,
    (claim_C8_order_independent_substitution
      [((['t'] : List Char), ['a', 'l']), (['u'], ['b'])]
      [Token.lit ['X'], Token.var ['t'], Token.var ['z']]
      (by decide) (by decide)).2
      [((['u'] : List Char), ['b']), (['t'], ['a', 'l'])]
      (by decide) (by decide)⟩

end Waterfall
